import Mathlib

/-!
# bcm2cfg: checksum, cipher and repair of Broadcom configuration backups

A shallow embedding of `src/bcm2cfg.c`.  Buffers are lists of bytes, C strings
are lists of characters read up to the first NUL, the process-wide `profile`
pointer becomes an explicit argument, and what the program prints becomes a
list of messages.  OpenSSL's MD5 and AES are parameters: the program only
relies on MD5 producing 16 bytes and on AES mapping a 16-byte block to a
16-byte block.  `main` is modelled on the sequence of options that `getopt`
returns; `handle_common_opt`, the profile registry and the record parser
`bcm2_nv_parse_groups`, which `bcm2cfg.c` only calls, are parameters of the
world `main` runs in.  For the parser's own properties there is in addition
`parse_records`, written from the specification.
-/

namespace Bcm2cfg

/-- An `unsigned char`. -/
abbrev Byte := Fin 256

/-! ## Library interfaces -/

/-- OpenSSL MD5 as used through `MD5_Init`, `MD5_Update`, `MD5_Final`: a
function of the bytes fed to the context, giving a 16-byte digest. -/
structure MD5 where
  hash : List Byte → List Byte
  hash_length : ∀ m, (hash m).length = 16

/-- The streaming context `MD5_CTX`: the bytes fed so far. -/
abbrev MD5_CTX := List Byte

def MD5_Init : MD5_CTX := []

def MD5_Update (c : MD5_CTX) (data : List Byte) : MD5_CTX := c ++ data

def MD5_Final (md5 : MD5) (c : MD5_CTX) : List Byte := md5.hash c

/-- OpenSSL AES-256 on one block: `AES_set_encrypt_key` + `AES_encrypt` and
`AES_set_decrypt_key` + `AES_decrypt`, as functions of key and 16-byte block. -/
structure AES where
  encrypt : List Byte → List Byte → List Byte
  decrypt : List Byte → List Byte → List Byte
  encrypt_length : ∀ key b, b.length = 16 → (encrypt key b).length = 16
  decrypt_length : ∀ key b, b.length = 16 → (decrypt key b).length = 16

/-- The fields of `struct bcm2_profile` (declared in `profile.h`) that
`bcm2cfg.c` reads.  `cfg_keyfun` is a nullable function pointer that returns
false (`none`) on failure and otherwise fills a 32-byte key. -/
structure Profile where
  name : String
  cfg_md5key : List Char
  cfg_keyfun : Option (List Char → Option (List Byte))

/-- What the environment lets the three fallible library calls of `do_crypt`
do: `malloc`, `fopen(outfile, "w")`, and `fwrite` of a non-empty range. -/
structure Sys where
  malloc_ok : Bool
  fopen_ok : Bool
  fwrite_ok : Bool
  deriving DecidableEq, Repr

/-- The fields of `struct bcm2_nv_group` (declared in `nonvol.h`) that
`do_list` prints for one node of the list. -/
structure Group where
  offset : Nat
  magic : List Byte
  name : String
  version : Nat × Nat
  size : Nat
  invalid : Bool
  deriving DecidableEq, Repr

/-- Lines the program prints (stdout and stderr), in order. -/
inductive Msg where
  | err_md5key (profile_name : String)
  | bad_checksum (actual expected : List Byte)
  | checksum_ok (actual : List Byte)
  | err_file_too_small
  | err_no_keyfun (profile_name : String)
  | err_keyfun_failed
  | perror_malloc
  | perror_outfile
  | perror_fwrite
  | new_checksum (md5 : List Byte)
  | err_exceeds_max_size
  | updated_size (old new : Nat)
  | nothing_to_fix
  | err_file_too_short
  | magic_line (magic : List Byte)
  | version_line (major minor : Nat)
  | size_line (size : Nat) (mismatch : Bool)
  | group_line (group : Group)
  | failed_to_parse (remaining : Nat)
  | usage_text
  | err_no_input_file
  | err_n_with_v
  | err_no_password
  | err_no_output_file
  | warn_generic_verify
  | warn_generic_noverify
  | perror_infile
  | perror_fread
  deriving DecidableEq, Repr

/-! ## C strings -/

/-- The terminating NUL character. -/
def NUL : Char := Char.ofNat 0

/-- The character at `s[i]`; memory after the listed characters holds NUL. -/
def cidx (s : List Char) (i : Nat) : Char := s.getD i NUL

/-- C `strlen`: the number of characters before the first NUL. -/
def strlen (s : List Char) : Nat := (s.takeWhile (fun c => c != NUL)).length

/-- C `isspace` in the "C" locale. -/
def isspace (c : Char) : Bool := c.toNat = 32 || (9 ≤ c.toNat && c.toNat ≤ 13)

/-- Value of a hexadecimal digit, `none` for any other character. -/
def hexdigit (c : Char) : Option Nat :=
  if 48 ≤ c.toNat ∧ c.toNat ≤ 57 then some (c.toNat - 48)
  else if 97 ≤ c.toNat ∧ c.toNat ≤ 102 then some (c.toNat - 87)
  else if 65 ≤ c.toNat ∧ c.toNat ≤ 70 then some (c.toNat - 55)
  else none

/-- The value of a hexadecimal digit, 0 for any other character. -/
def hexval (c : Char) : Nat := (hexdigit c).getD 0

/-- The call `sscanf(ch, "%02x", &val)` on the three-character array
`ch = {c0, c1, 0}`: `some val` when it returns 1, `none` otherwise.
Following ISO C: leading white space is skipped and not counted against the
width, then at most two characters are taken: an optional sign, and
hexadecimal digits; a negated value wraps as `unsigned`.  The input "0x"
is a prefix without digits and is a matching failure (some C libraries
accept it as 0; nothing proved below depends on that input). -/
def sscanf_02x (c0 c1 : Char) : Option Nat :=
  match ([c0, c1].takeWhile (fun c => c != NUL)).dropWhile isspace with
  | [] => none
  | c :: rest =>
    if c.toNat = 43 ∨ c.toNat = 45 then
      match rest with
      | [] => none
      | d :: _ =>
        match hexdigit d with
        | none => none
        | some v => some (if c.toNat = 45 then (2 ^ 32 - v) % 2 ^ 32 else v)
    else
      match hexdigit c with
      | none => none
      | some v0 =>
        match rest with
        | [] => some v0
        | d :: _ =>
          if c.toNat = 48 ∧ (d.toNat = 120 ∨ d.toNat = 88) then none
          else
            match hexdigit d with
            | none => some v0
            | some v1 => some (16 * v0 + v1)

/-- The `for` loop of `parse_hexstr`, from index `i` with `buf[0..i)` already
stored.  `fuel` bounds the iterations; `l + 1` is always enough since `i`
grows by one and the loop stops at `i = l` at the latest
(`parse_hexstr_loop_fuel`). -/
def parse_hexstr_loop (hexstr : List Char) (l : Nat) :
    Nat → Nat → List Byte → Bool × List Byte
  | 0, _, buf => (true, buf)
  | fuel + 1, i, buf =>
    if i < l ∧ cidx hexstr (i * 2) ≠ NUL then
      match sscanf_02x (cidx hexstr (i * 2)) (cidx hexstr (i * 2 + 1)) with
      | none => (false, buf)
      | some val => parse_hexstr_loop hexstr l fuel (i + 1) (buf ++ [Fin.ofNat (val % 256)])
    else (true, buf)

/-- `parse_hexstr(hexstr, buf, &len)` with `*len = cap` on entry.  Gives the
return value and the bytes stored to `buf[0..)`; on `true` the new `*len` is
the number of bytes stored. -/
def parse_hexstr (hexstr : List Char) (cap : Nat) : Bool × List Byte :=
  let l := strlen hexstr
  if l % 2 = 0 ∧ l ≤ cap * 2 then
    parse_hexstr_loop hexstr l (l + 1) 0 []
  else (false, [])

/-- The indices of `hexstr` that the `for` loop of `parse_hexstr` reads, in
order, from index `i` on: `hexstr[i * 2]` in the loop condition (only when
`i < l`), then `hexstr[i * 2]` and `hexstr[i * 2 + 1]` in the `memcpy`. -/
def parse_hexstr_reads (hexstr : List Char) (l : Nat) : Nat → Nat → List Nat
  | 0, _ => []
  | fuel + 1, i =>
    if i < l then
      (i * 2) ::
        (if cidx hexstr (i * 2) ≠ NUL then
          [i * 2, i * 2 + 1] ++
            (match sscanf_02x (cidx hexstr (i * 2)) (cidx hexstr (i * 2 + 1)) with
              | none => []
              | some _ => parse_hexstr_reads hexstr l fuel (i + 1))
        else [])
    else []

/-- `calc_md5(buf, size, md5)` with `buf` the `size` bytes to digest:
`.ok digest` when it returns true, `.error m` when it prints `m` and
returns false. -/
def calc_md5 (md5 : MD5) (profile : Profile) (buf : List Byte) : Except Msg (List Byte) :=
  let c := MD5_Update MD5_Init buf
  if cidx profile.cfg_md5key 0 ≠ NUL then
    match parse_hexstr profile.cfg_md5key 64 with
    | (false, _) => .error (Msg.err_md5key profile.name)
    | (true, key) => .ok (MD5_Final md5 (MD5_Update c key))
  else .ok (MD5_Final md5 c)

/-! ## Verification -/

/-- Result of `do_verify`: the return value and the lines printed. -/
structure VerifyResult where
  ret : Int
  msgs : List Msg
  deriving DecidableEq, Repr

/-- `memcmp(a, b, n) != 0` on buffers holding at least `n` bytes. -/
def memcmp (a b : List Byte) (n : Nat) : Bool := a.take n != b.take n

/-- `do_verify(buf, len, verbosity)` with `len = buf.length`.  `none` is
undefined behaviour: for `len < 16` the `memcpy` of 16 bytes reads past the
buffer and `len - 16` wraps around. -/
def do_verify (md5 : MD5) (profile : Profile) (buf : List Byte) (verbosity : Int) :
    Option VerifyResult :=
  if buf.length < 16 then none
  else
    let actual := buf.take 16
    match calc_md5 md5 profile (buf.drop 16) with
    | .error m => some ⟨1, [m]⟩
    | .ok expected =>
      if memcmp actual expected 16 then
        some ⟨1, if verbosity ≠ 0 then [Msg.bad_checksum actual expected] else []⟩
      else if verbosity > 1 then
        some ⟨0, [Msg.checksum_ok actual]⟩
      else
        some ⟨0, []⟩

/-! ## Cipher -/

/-- Result of `do_crypt`: the return value, the lines printed, and the
contents of `outfile` after the call (`none`: `fopen` was never reached, the
file is untouched; `some bs`: the file was opened for writing, which truncates
it, and `bs` was written). -/
structure CryptResult where
  ret : Int
  msgs : List Msg
  out : Option (List Byte)
  deriving DecidableEq, Repr

/-- The `while (remaining >= 16)` loop of `do_crypt` followed by the `memcpy`
of the remaining bytes: `iblock` is the input from the current block on, the
result is what is stored from `oblock` on.  `cipher` is `AES_encrypt` or
`AES_decrypt` under the derived key.  `fuel` bounds the iterations; any
`fuel` of at least the input length gives the same result (`crypt_loop_fuel`),
and `do_crypt` passes `remaining` itself. -/
def crypt_loop (cipher : List Byte → List Byte) : Nat → List Byte → List Byte
  | 0, iblock => iblock
  | fuel + 1, iblock =>
    if 16 ≤ iblock.length then
      cipher (iblock.take 16) ++ crypt_loop cipher fuel (iblock.drop 16)
    else iblock

/-- `xfwrite(buf, len, fp)`: `fwrite(buf, len, 1, fp)` returns 1 only if one
item of `len` bytes was written; for `len = 0` it returns 0. -/
def xfwrite (sys : Sys) (len : Nat) : Bool := decide (len ≠ 0) && sys.fwrite_ok

/-- The `if (password) { ... } else { ... }` part of `do_crypt`, for
`len = buf.length >= 16`: `.ok wbuf` with the bytes `wbuf` points to, or
`.error r` when the function returns early with `r`. -/
def do_crypt_wbuf (sys : Sys) (aes : AES) (profile : Profile) (buf : List Byte)
    (password : Option (List Char)) (decrypt : Bool) : Except CryptResult (List Byte) :=
  match password with
  | some pw =>
    match profile.cfg_keyfun with
    | none => .error ⟨1, [Msg.err_no_keyfun profile.name], none⟩
    | some keyfun =>
      match keyfun pw with
      | none => .error ⟨1, [Msg.err_keyfun_failed], none⟩
      | some key =>
        if !sys.malloc_ok then .error ⟨1, [Msg.perror_malloc], none⟩
        else
          .ok (crypt_loop (if decrypt then aes.decrypt key else aes.encrypt key)
            (buf.length - 16) (buf.drop 16))
  | none => .ok (buf.drop 16)

/-- `do_crypt(buf, len, outfile, password, decrypt)` with `len = buf.length`.
`none` is undefined behaviour: when `fopen` fails the code jumps to `out:` and
calls `fclose` on a null pointer. -/
def do_crypt (sys : Sys) (md5 : MD5) (aes : AES) (profile : Profile) (buf : List Byte)
    (password : Option (List Char)) (decrypt : Bool) : Option CryptResult :=
  let len := buf.length
  if len < 16 then some ⟨1, [Msg.err_file_too_small], none⟩
  else
    match do_crypt_wbuf sys aes profile buf password decrypt with
    | .error r => some r
    | .ok wbuf =>
      if !sys.fopen_ok then none
      else
        match calc_md5 md5 profile wbuf with
        | .error m => some ⟨1, [m], some []⟩
        | .ok digest =>
          if !xfwrite sys 16 then some ⟨1, [Msg.perror_fwrite], some []⟩
          else if !xfwrite sys (len - 16) then some ⟨1, [Msg.perror_fwrite], some digest⟩
          else
            some ⟨0, if password.isNone then [Msg.new_checksum digest] else [],
              some (digest ++ wbuf)⟩

/-- The relation between the input `buf` and the bytes `payload` that a
successful `do_crypt` writes after the digest: bytes 16.. of `buf` unchanged
without a password, the block loop's result under the derived key with one. -/
def Transformed (aes : AES) (profile : Profile) (buf : List Byte)
    (password : Option (List Char)) (decrypt : Bool) (payload : List Byte) : Prop :=
  match password with
  | none => payload = buf.drop 16
  | some pw =>
    ∃ keyfun key, profile.cfg_keyfun = some keyfun ∧ keyfun pw = some key ∧
      payload = crypt_loop (if decrypt then aes.decrypt key else aes.encrypt key)
        (buf.length - 16) (buf.drop 16)

/-! ## Repair -/

/-- `ntohs` of the 16-bit value stored as the bytes `hi`, `lo`. -/
def ntohs (hi lo : Byte) : Nat := hi.val * 256 + lo.val

/-- The two bytes stored for `htons(v)`, with `v` converted to `uint16_t`. -/
def htons (v : Nat) : List Byte :=
  [Fin.ofNat (v % 65536 / 256), Fin.ofNat (v % 65536 % 256)]

/-- The store `*size = htons(v)` through `size = (uint16_t*)(buf + 16 + 74 + 4)`. -/
def store_size (buf : List Byte) (v : Nat) : List Byte :=
  (buf.set 94 ((htons v).getD 0 0)).set 95 ((htons v).getD 1 0)

/-- Result of `do_fix`: the return value, the lines printed, the contents of
`outfile` after the call (as in `CryptResult`), and the in-memory buffer after
the call. -/
structure FixResult where
  ret : Int
  msgs : List Msg
  out : Option (List Byte)
  buf : List Byte
  deriving DecidableEq, Repr

/-- The end of `do_fix`, from `if (!ret && !fixed)`: prints "nothing to fix"
when nothing failed and nothing was changed, and returns `ret`. -/
def do_fix_report (ret : Int) (fixed : Bool) (msgs : List Msg) (out : Option (List Byte))
    (buf : List Byte) : FixResult :=
  ⟨ret, msgs ++ (if ret = 0 ∧ fixed = false then [Msg.nothing_to_fix] else []), out, buf⟩

/-- The second half of `do_fix`, from `int ret = 0`: `buf` is the buffer after
the size check, `fixed` and `msgs` what the size check set and printed. -/
def do_fix_checksum (sys : Sys) (md5 : MD5) (aes : AES) (profile : Profile)
    (buf : List Byte) (fixed : Bool) (msgs : List Msg) : Option FixResult :=
  match do_verify md5 profile buf 0 with
  | none => none
  | some v =>
    if v.ret ≠ 0 then
      match do_crypt sys md5 aes profile buf none false with
      | none => none
      | some c => some (do_fix_report c.ret true (msgs ++ v.msgs ++ c.msgs) c.out buf)
    else
      some (do_fix_report 0 fixed (msgs ++ v.msgs) none buf)

/-- `do_fix(buf, len, outfile)` with `len = buf.length`.  `none` is undefined
behaviour: for `len < 96` the size field read through `size` lies outside the
buffer. -/
def do_fix (sys : Sys) (md5 : MD5) (aes : AES) (profile : Profile) (buf : List Byte) :
    Option FixResult :=
  let len := buf.length
  if len < 96 then none
  else
    let size := ntohs (buf.getD 94 0) (buf.getD 95 0)
    if size ≠ len then
      if len > 0xffff then
        some ⟨1, [Msg.err_exceeds_max_size], none, buf⟩
      else
        do_fix_checksum sys md5 aes profile (store_size buf len) true
          [Msg.updated_size size len]
    else
      do_fix_checksum sys md5 aes profile buf false []

/-! ## Listing -/

/-- Result of `do_list`: the return value and the lines printed. -/
structure ListResult where
  ret : Int
  msgs : List Msg
  deriving DecidableEq, Repr

/-- `do_list(buf, len)` with `len = buf.length`.  `parse_groups` stands for
`bcm2_nv_parse_groups(buf, len, &remaining)` (declared in `nonvol.h`): it
gives the linked list of groups, the null pointer being the empty list, and
the value stored to `remaining`. -/
def do_list (parse_groups : List Byte → List Group × Nat) (buf : List Byte) : ListResult :=
  let len := buf.length
  let off := 16 + 74 + 4 + 2
  if len < off then ⟨1, [Msg.err_file_too_short]⟩
  else
    let magic := ((buf.drop 16).take 74).takeWhile (fun b => b != 0)
    let major := ntohs (buf.getD 90 0) (buf.getD 91 0)
    let minor := ntohs (buf.getD 92 0) (buf.getD 93 0)
    let size := ntohs (buf.getD 94 0) (buf.getD 95 0)
    let head := [Msg.magic_line magic, Msg.version_line major minor,
      Msg.size_line size (decide (size ≠ len))]
    let parsed := parse_groups (buf.drop off)
    if parsed.1 = [] then ⟨1, head⟩
    else
      ⟨0, head ++ parsed.1.map Msg.group_line ++
        (if parsed.2 ≠ 0 then [Msg.failed_to_parse parsed.2] else [])⟩

/-! ## The command line -/

/-- One return of `getopt(argc, argv, "Vfdelp:o:nvP:O:L")`, with `optarg`.
`common` is one of `L`, `O`, `P`, `v`; `unknown` is the return `?` for any
other option character (`h` included, which the option string lacks) or for a
missing argument. -/
inductive Opt where
  | V
  | f
  | d
  | e
  | l
  | n
  | p (arg : List Char)
  | o (arg : String)
  | common (c : Char) (arg : Option String)
  | unknown
  deriving DecidableEq, Repr

/-- The functions `main` calls on the input, for the record of a run. -/
inductive Call where
  | read_file
  | do_verify
  | do_crypt
  | do_list
  | do_fix
  deriving DecidableEq, Repr

/-- Result of `main`: the exit status, the lines printed and the calls made. -/
structure MainResult where
  ret : Int
  msgs : List Msg
  calls : List Call
  deriving DecidableEq, Repr

/-- What `main` runs in: the library behaviour, the registry entry that
`bcm2_profile_find("generic")` returns, `handle_common_opt` (declared in
`common.h`; `none` when it returns false, otherwise the new verbosity and
profile), the readable files, and the record parser. -/
structure World where
  sys : Sys
  md5 : MD5
  aes : AES
  profile_generic : Profile
  handle_common_opt : Char → Option String → Int → Profile → Option (Int × Profile)
  files : String → Option (List Byte)
  parse_groups : List Byte → List Group × Nat

/-- The local variables of `main` that the option loop sets. -/
structure Flags where
  verify : Nat
  fix : Nat
  decrypt : Nat
  encrypt : Nat
  list : Nat
  noverify : Nat
  verbosity : Int
  outfile : Option String
  password : Option (List Char)
  profile : Profile

/-- The variables of `main` before the option loop. -/
def flags_init (w : World) : Flags :=
  ⟨0, 0, 0, 0, 0, 0, 0, none, none, w.profile_generic⟩

/-- One pass through the `switch` of the option loop: the new variables, or
the result `main` ends with (`return 1`, or `usage(1)` which exits). -/
def getopt_case (w : World) (st : Flags) : Opt → Except MainResult Flags
  | .V => .ok { st with verify := 1 }
  | .f => .ok { st with fix := 1, noverify := 1 }
  | .d => .ok { st with decrypt := 1 }
  | .e => .ok { st with encrypt := 1 }
  | .l => .ok { st with list := 1 }
  | .n => .ok { st with noverify := 1 }
  | .p arg => .ok { st with password := some arg }
  | .o arg => .ok { st with outfile := some arg }
  | .common c arg =>
    match w.handle_common_opt c arg st.verbosity st.profile with
    | none => .error ⟨1, [], []⟩
    | some (verbosity, profile) => .ok { st with verbosity := verbosity, profile := profile }
  | .unknown => .error ⟨1, [Msg.usage_text], []⟩

/-- The `while ((c = getopt(...)) != -1)` loop over the options given. -/
def getopt_loop (w : World) : Flags → List Opt → Except MainResult Flags
  | st, [] => .ok st
  | st, opt :: opts =>
    match getopt_case w st opt with
    | .error r => .error r
    | .ok st1 => getopt_loop w st1 opts

/-- `read_file(filename, &buf, &len)`: `.error m` when it prints `m` and
returns 1 (`fopen` fails, or `fread` of one item of `len` bytes does not
return 1, as for an empty file). -/
def read_file (files : String → Option (List Byte)) (filename : String) :
    Except Msg (List Byte) :=
  match files filename with
  | none => .error Msg.perror_infile
  | some bytes => if bytes.length = 0 then .error Msg.perror_fread else .ok bytes

/-- The end of `main`, from `int ret = 0` on, with the file read into `buf`.
`none` is undefined behaviour in `do_verify`, `do_crypt` or `do_fix`. -/
def main_run (w : World) (st : Flags) (noverify : Nat) (buf : List Byte)
    (msgs : List Msg) : Option MainResult :=
  let verified : Option MainResult :=
    if st.verify ≠ 0 ∨ noverify = 0 then
      (do_verify w.md5 st.profile buf (if st.verify ≠ 0 then 2 else 1)).map
        (fun v => ⟨v.ret, msgs ++ v.msgs, [Call.read_file, Call.do_verify]⟩)
    else some ⟨0, msgs, [Call.read_file]⟩
  match verified with
  | none => none
  | some r1 =>
    let transformed : Option MainResult :=
      if r1.ret = 0 then
        if st.encrypt ≠ 0 ∨ st.decrypt ≠ 0 then
          (do_crypt w.sys w.md5 w.aes st.profile buf st.password (decide (st.decrypt ≠ 0))).map
            (fun c => ⟨c.ret, r1.msgs ++ c.msgs, r1.calls ++ [Call.do_crypt]⟩)
        else if st.list ≠ 0 then
          some ⟨(do_list w.parse_groups buf).ret, r1.msgs ++ (do_list w.parse_groups buf).msgs,
            r1.calls ++ [Call.do_list]⟩
        else some r1
      else some r1
    match transformed with
    | none => none
    | some r2 =>
      if st.fix ≠ 0 then
        (do_fix w.sys w.md5 w.aes st.profile buf).map
          (fun x => ⟨x.ret, r2.msgs ++ x.msgs, r2.calls ++ [Call.do_fix]⟩)
      else some r2

/-- `main(argc, argv)` on the options `opts` that `getopt` returns and the
arguments `args` left from `optind` on.  `usage(1)` prints the usage text and
exits with status 1. -/
def main (w : World) (opts : List Opt) (args : List String) : Option MainResult :=
  match getopt_loop w (flags_init w) opts with
  | .error r => some r
  | .ok st =>
    if st.verify + st.fix + st.decrypt + st.encrypt + st.list ≠ 1 then
      some ⟨1, [Msg.usage_text], []⟩
    else
      match args with
      | [] => some ⟨1, [Msg.err_no_input_file], []⟩
      | infile :: _ =>
        if st.verify ≠ 0 ∧ st.noverify ≠ 0 then some ⟨1, [Msg.err_n_with_v], []⟩
        else if st.password = none ∧ (st.encrypt ≠ 0 ∨ st.decrypt ≠ 0) then
          some ⟨1, [Msg.err_no_password], []⟩
        else if st.outfile = none ∧ (st.encrypt ≠ 0 ∨ st.decrypt ≠ 0) then
          some ⟨1, [Msg.err_no_output_file], []⟩
        else
          let is_generic := st.profile.name = "generic"
          let warning :=
            if is_generic then
              [if st.verify ≠ 0 then Msg.warn_generic_verify else Msg.warn_generic_noverify]
            else []
          let noverify := if is_generic ∧ st.verify = 0 then 1 else st.noverify
          match read_file w.files infile with
          | .error m => some ⟨1, warning ++ [m], [Call.read_file]⟩
          | .ok buf => main_run w st noverify buf warning

/-- The number of distinct commands (`-V`, `-f`, `-d`, `-e`, `-l`) among the
options given. -/
def commands_selected (opts : List Opt) : Nat :=
  (if Opt.V ∈ opts then 1 else 0) + (if Opt.f ∈ opts then 1 else 0) +
    (if Opt.d ∈ opts then 1 else 0) + (if Opt.e ∈ opts then 1 else 0) +
    (if Opt.l ∈ opts then 1 else 0)

/-! ## The record parser -/

/-- One record of the payload, as the specification describes it: its offset
from the payload start, the 8 magic bytes, the 4 name/version bytes, the
declared body length, and the `invalid` mark. -/
structure Record where
  offset : Nat
  magic : List Byte
  name_version : List Byte
  length : Nat
  invalid : Bool
  deriving DecidableEq, Repr

/-- A read of `n` bytes at offset `off`; `none` when it would pass the end of
the buffer. -/
def read_bytes (buf : List Byte) (off n : Nat) : Option (List Byte) :=
  if off + n ≤ buf.length then some ((buf.drop off).take n) else none

/-- The big-endian value of a byte string. -/
def be_value (bytes : List Byte) : Nat := bytes.foldl (fun acc b => acc * 256 + b.val) 0

/-- Modelled from the spec: the record parser `bcm2_nv_parse_groups`, which
`nonvol.h` declares and whose source is not among the files of `src/`.
Following section 4.3 and the layout of section 6: at the current offset the
fixed-size header (8 magic bytes, 4 name/version bytes, a length field of the
profile-defined width `width`) is read; a record whose magic fails the
profile-specific check `magic_ok` is marked invalid; the record is consumed
(header and `length` body bytes) when the declared length is non-zero and fits
the remaining buffer, and otherwise parsing stops and everything from the
current offset is the unparsed remainder.  Parsing also stops when fewer bytes
than a header remain.  The result is the records in order and the remainder
length; `none` would be a read past the end of the buffer.  `fuel` bounds the
number of records; the buffer length is always enough as every record
consumes at least one byte. -/
def parse_records (width : Nat) (magic_ok : List Byte → Bool) (buf : List Byte) :
    Nat → Nat → Option (List Record × Nat)
  | 0, off => some ([], buf.length - off)
  | fuel + 1, off =>
    if buf.length - off < 12 + width then some ([], buf.length - off)
    else
      match read_bytes buf off 8, read_bytes buf (off + 8) 4,
          read_bytes buf (off + 12) width with
      | some magic, some name_version, some len_bytes =>
        let length := be_value len_bytes
        if length = 0 ∨ buf.length - off - (12 + width) < length then
          some ([], buf.length - off)
        else
          match parse_records width magic_ok buf fuel (off + 12 + width + length) with
          | none => none
          | some (records, remaining) =>
            some (⟨off, magic, name_version, length, !magic_ok magic⟩ :: records, remaining)
      | _, _, _ => none

/-- The bytes one record takes in the payload: header and body. -/
def Record.consumed (width : Nat) (r : Record) : Nat := 12 + width + r.length

/-! ## Concrete instances used to run the definitions -/

/-- A stand-in digest: sixteen copies of the sum of the bytes. -/
def sumMD5 : MD5 where
  hash m := List.replicate 16 m.sum
  hash_length := by simp

/-- A stand-in block cipher: adds the first key byte to every byte. -/
def addAES : AES where
  encrypt key b := b.map (fun x => x + key.headD 1)
  decrypt key b := b.map (fun x => x - key.headD 1)
  encrypt_length := by simp
  decrypt_length := by simp

/-- Every library call succeeds. -/
def sysOk : Sys := ⟨true, true, true⟩

/-- The registry's "generic" profile: no secret, no key function. -/
def generic : Profile := ⟨"generic", [], none⟩

/-- A key function that takes the password's character codes as key and
rejects the empty password. -/
def charKey (pw : List Char) : Option (List Byte) :=
  if pw = [] then none else some (pw.map (fun c => Fin.ofNat (c.toNat % 256)))

/-- A profile with the secret "deadbeef" and the key function `charKey`. -/
def keyed : Profile := ⟨"keyed", "deadbeef".toList, some charKey⟩

/-- The password "x". -/
def pwX : List Char := "x".toList

/-- A 35-byte file: a zero digest, one full block and three trailing bytes. -/
def plainFile : List Byte :=
  [0, 0, 0, 0, 0, 0, 0, 0, 0, 0, 0, 0, 0, 0, 0, 0,
   1, 2, 3, 4, 5, 6, 7, 8, 9, 10, 11, 12, 13, 14, 15, 16,
   17, 18, 19]

/-- What encrypting `plainFile` under `keyed`, `pwX`, `sumMD5`, `addAES` writes. -/
def cipherFile : List Byte :=
  [118, 118, 118, 118, 118, 118, 118, 118, 118, 118, 118, 118, 118, 118, 118, 118,
   121, 122, 123, 124, 125, 126, 127, 128, 129, 130, 131, 132, 133, 134, 135, 136,
   17, 18, 19]

/-- Bytes 16..119 of a 120-byte file whose size field (offsets 94..95 of the
file, 78..79 here) holds 90. -/
def staleSizePayload : List Byte :=
  List.replicate 78 0 ++ [0, 90] ++ List.replicate 24 0

/-- The same bytes with the size field holding 120. -/
def fixedSizePayload : List Byte :=
  List.replicate 78 0 ++ [0, 120] ++ List.replicate 24 0

/-- A 120-byte file whose size field holds 90 and whose leading digest is the
digest of its bytes 16.. with the size field holding 120: a valid file in
which only the size field was damaged. -/
def staleSizeFile (md5 : MD5) : List Byte := md5.hash fixedSizePayload ++ staleSizePayload

/-- A 120-byte file with a zero digest, the size field holding 90, and 24
payload bytes: both the size and the digest are wrong. -/
def brokenFile : List Byte :=
  List.replicate 94 0 ++ [0, 90] ++ List.replicate 24 1

/-- What `do_fix` writes for `brokenFile` under `generic` and `sumMD5`. -/
def repairedFile : List Byte :=
  List.replicate 16 144 ++ List.replicate 78 0 ++ [0, 120] ++ List.replicate 24 1

/-- A stand-in for `handle_common_opt`: `v` raises the verbosity, `P` selects
`keyed` or `generic` by name and fails for any other name, `L` and `O` change
nothing. -/
def pickProfile (c : Char) (arg : Option String) (verbosity : Int) (profile : Profile) :
    Option (Int × Profile) :=
  if c = 'v' then some (verbosity + 1, profile)
  else if c = 'P' then
    if arg = some "keyed" then some (verbosity, keyed)
    else if arg = some "generic" then some (verbosity, generic)
    else none
  else some (verbosity, profile)

/-- A parser stand-in that finds no record: the null list, with the whole
payload as remainder. -/
def parseNothing (payload : List Byte) : List Group × Nat := ([], payload.length)

/-- A parser stand-in that finds one record covering all but the last three
bytes of the payload. -/
def parseOne (payload : List Byte) : List Group × Nat :=
  ([⟨0, [], "group", (0, 1), payload.length - 3, false⟩], 3)

/-- A world in which every library call succeeds, the only readable file is
"cfg" with contents `file`, and the parser finds nothing. -/
def cfgWorld (file : List Byte) : World :=
  ⟨sysOk, sumMD5, addAES, generic, pickProfile,
    fun name => if name = "cfg" then some file else none, parseNothing⟩

/-- A ten-byte file. -/
def tinyFile : List Byte := [1, 2, 3, 4, 5, 6, 7, 8, 9, 10]

/-- A profile whose secret is 130 hexadecimal digits. -/
def longSecret : Profile := ⟨"long", List.replicate 130 'a', none⟩

/-- A profile whose secret is the two characters "1g". -/
def looseSecret : Profile := ⟨"loose", "1g".toList, none⟩

/-- The options `-P keyed -d -p x -o out`. -/
def decryptOpts : List Opt :=
  [Opt.common 'P' (some "keyed"), Opt.d, Opt.p pwX, Opt.o "out"]

/-- The variables of `main` after the options `decryptOpts`. -/
def decryptFlags : Flags := ⟨0, 0, 1, 0, 0, 0, 0, some "out", some pwX, keyed⟩

/-! ## Hexadecimal strings -/

theorem NUL_toNat : NUL.toNat = 0 := by decide

theorem hexdigit_some (c : Char) (v : Nat) (h : hexdigit c = some v) :
    v < 16 ∧ (c != NUL) = true ∧ isspace c = false ∧ c.toNat ≠ 43 ∧ c.toNat ≠ 45 ∧
      c.toNat ≠ 120 ∧ c.toNat ≠ 88 := by
  have hne : ∀ n : Nat, c.toNat = n → n ≠ 0 → (c != NUL) = true := by
    intro n hn h0
    simp only [bne_iff_ne, ne_eq]
    intro hc
    rw [hc, NUL_toNat] at hn
    omega
  unfold hexdigit at h
  split at h
  · cases h
    refine ⟨by omega, hne _ rfl (by omega), ?_, by omega, by omega, by omega, by omega⟩
    simp [isspace]; omega
  · split at h
    · cases h
      refine ⟨by omega, hne _ rfl (by omega), ?_, by omega, by omega, by omega, by omega⟩
      simp [isspace]; omega
    · split at h
      · cases h
        refine ⟨by omega, hne _ rfl (by omega), ?_, by omega, by omega, by omega, by omega⟩
        simp [isspace]; omega
      · cases h

theorem sscanf_02x_hex (c0 c1 : Char) (v0 v1 : Nat) (h0 : hexdigit c0 = some v0)
    (h1 : hexdigit c1 = some v1) : sscanf_02x c0 c1 = some (16 * v0 + v1) := by
  obtain ⟨-, n0, s0, p0, m0, -, -⟩ := hexdigit_some c0 v0 h0
  obtain ⟨-, n1, -, -, -, x1, X1⟩ := hexdigit_some c1 v1 h1
  simp [sscanf_02x, List.takeWhile, List.dropWhile, n0, n1, s0, p0, m0, x1, X1, h0, h1]

theorem strlen_cons (c : Char) (s : List Char) :
    strlen (c :: s) = if (c != NUL) = true then strlen s + 1 else 0 := by
  unfold strlen
  by_cases h : (c != NUL) = true <;> simp [List.takeWhile, h]

theorem cidx_strlen (s : List Char) : cidx s (strlen s) = NUL := by
  induction s with
  | nil => rfl
  | cons c s ih =>
    rw [strlen_cons]
    by_cases h : (c != NUL) = true
    · rw [if_pos h]
      simpa [cidx] using ih
    · rw [if_neg h]
      simpa [cidx] using h

theorem cidx_lt_strlen (s : List Char) (i : Nat) (h : i < strlen s) : cidx s i ≠ NUL := by
  induction s generalizing i with
  | nil => simp [strlen] at h
  | cons c s ih =>
    rw [strlen_cons] at h
    by_cases hc : (c != NUL) = true
    · rw [if_pos hc] at h
      cases i with
      | zero => simpa [cidx] using hc
      | succ j =>
        have := ih j (by omega)
        simpa [cidx] using this
    · rw [if_neg hc] at h
      omega

theorem hexdigit_of_isSome (c : Char) (h : (hexdigit c).isSome = true) :
    hexdigit c = some (hexval c) := by
  unfold hexval
  cases hd : hexdigit c with
  | none => rw [hd] at h; cases h
  | some v => rfl

/-- The loop of `parse_hexstr` on a string of hexadecimal digits: from index
`i` with `n` pairs left it stores the `n` pair values and returns true. -/
theorem parse_hexstr_loop_hex (hexstr : List Char)
    (hall : ∀ i, i < strlen hexstr → (hexdigit (cidx hexstr i)).isSome = true)
    (n i fuel : Nat) (buf : List Byte) (hi : i * 2 + 2 * n = strlen hexstr) (hf : n < fuel) :
    parse_hexstr_loop hexstr (strlen hexstr) fuel i buf =
      (true, buf ++ (List.range' i n).map (fun k =>
        (Fin.ofNat ((16 * hexval (cidx hexstr (k * 2)) + hexval (cidx hexstr (k * 2 + 1))) % 256)
          : Byte))) := by
  induction n generalizing i fuel buf with
  | zero =>
    obtain ⟨f, rfl⟩ : ∃ f, fuel = f + 1 := ⟨fuel - 1, by omega⟩
    have hz : cidx hexstr (i * 2) = NUL := by
      have : i * 2 = strlen hexstr := by omega
      rw [this]
      exact cidx_strlen hexstr
    simp [parse_hexstr_loop, hz]
  | succ n ih =>
    obtain ⟨f, rfl⟩ : ∃ f, fuel = f + 1 := ⟨fuel - 1, by omega⟩
    have h0 := hexdigit_of_isSome _ (hall (i * 2) (by omega))
    have h1 := hexdigit_of_isSome _ (hall (i * 2 + 1) (by omega))
    have hnz : cidx hexstr (i * 2) ≠ NUL := cidx_lt_strlen hexstr _ (by omega)
    have hil : i < strlen hexstr := by omega
    rw [parse_hexstr_loop, if_pos ⟨hil, hnz⟩, sscanf_02x_hex _ _ _ _ h0 h1]
    simp only []
    rw [ih (i + 1) f _ (by omega) (by omega), List.range'_succ]
    simp

theorem parse_hexstr_reads_le (hexstr : List Char) (heven : strlen hexstr % 2 = 0)
    (fuel i : Nat) (hi : i * 2 ≤ strlen hexstr) :
    ∀ j ∈ parse_hexstr_reads hexstr (strlen hexstr) fuel i, j ≤ strlen hexstr := by
  induction fuel generalizing i with
  | zero => simp [parse_hexstr_reads]
  | succ f ih =>
    intro j hj
    unfold parse_hexstr_reads at hj
    split at hj
    · rw [List.mem_cons] at hj
      rcases hj with rfl | hj
      · exact hi
      · split at hj
        · rename_i hnz
          have hlt : i * 2 < strlen hexstr := by
            rcases Nat.lt_or_ge (i * 2) (strlen hexstr) with h | h
            · exact h
            · exfalso
              apply hnz
              have : i * 2 = strlen hexstr := by omega
              rw [this]
              exact cidx_strlen hexstr
          simp only [List.cons_append, List.nil_append, List.mem_cons] at hj
          rcases hj with rfl | rfl | hj
          · exact hi
          · omega
          · split at hj
            · simp at hj
            · exact ih (i + 1) (by omega) j hj
        · simp at hj
    · simp at hj

/-! ## The block loop -/

theorem crypt_loop_length (cipher : List Byte → List Byte)
    (hc : ∀ b, b.length = 16 → (cipher b).length = 16) (fuel : Nat) (iblock : List Byte) :
    (crypt_loop cipher fuel iblock).length = iblock.length := by
  induction fuel generalizing iblock with
  | zero => rfl
  | succ f ih =>
    unfold crypt_loop
    split
    · rename_i h
      have h16 : (iblock.take 16).length = 16 := by simp [List.length_take]; omega
      simp only [List.length_append, hc _ h16, ih, List.length_drop]
      omega
    · rfl

theorem crypt_loop_short (cipher : List Byte → List Byte) (fuel : Nat) (iblock : List Byte)
    (h : iblock.length < 16) : crypt_loop cipher fuel iblock = iblock := by
  cases fuel with
  | zero => rfl
  | succ f => simp [crypt_loop, Nat.not_le.mpr h]

theorem crypt_loop_block (cipher : List Byte → List Byte) (fuel : Nat) (b rest : List Byte)
    (hb : b.length = 16) :
    crypt_loop cipher (fuel + 1) (b ++ rest) = cipher b ++ crypt_loop cipher fuel rest := by
  have h : 16 ≤ (b ++ rest).length := by simp [hb]
  rw [crypt_loop, if_pos h, List.take_left' hb, List.drop_left' hb]

theorem crypt_loop_fuel (cipher : List Byte → List Byte) (f1 f2 : Nat) (iblock : List Byte)
    (h1 : iblock.length ≤ f1) (h2 : iblock.length ≤ f2) :
    crypt_loop cipher f1 iblock = crypt_loop cipher f2 iblock := by
  induction f1 generalizing f2 iblock with
  | zero =>
    have hs : iblock.length < 16 := by omega
    rw [crypt_loop_short cipher 0 _ hs, crypt_loop_short cipher f2 _ hs]
  | succ f ih =>
    by_cases h : 16 ≤ iblock.length
    · obtain ⟨k, rfl⟩ : ∃ k, f2 = k + 1 := ⟨f2 - 1, by omega⟩
      simp only [crypt_loop, if_pos h]
      rw [ih k (iblock.drop 16) (by simp; omega) (by simp; omega)]
    · have hs : iblock.length < 16 := Nat.lt_of_not_le h
      rw [crypt_loop_short cipher _ _ hs, crypt_loop_short cipher _ _ hs]

theorem parse_hexstr_loop_fuel (hexstr : List Char) (l f1 f2 i : Nat) (buf : List Byte)
    (h1 : l - i < f1) (h2 : l - i < f2) :
    parse_hexstr_loop hexstr l f1 i buf = parse_hexstr_loop hexstr l f2 i buf := by
  induction f1 generalizing f2 i buf with
  | zero => omega
  | succ f ih =>
    obtain ⟨k, rfl⟩ : ∃ k, f2 = k + 1 := ⟨f2 - 1, by omega⟩
    simp only [parse_hexstr_loop]
    split
    · rename_i hc
      split
      · rfl
      · exact ih k (i + 1) _ (by omega) (by omega)
    · rfl

theorem split_block (l : List Byte) (h : 16 ≤ l.length) :
    ∃ b rest, l = b ++ rest ∧ b.length = 16 :=
  ⟨l.take 16, l.drop 16, (List.take_append_drop 16 l).symm, by simp [List.length_take]; omega⟩

theorem crypt_loop_roundtrip (enc dec : List Byte → List Byte)
    (henc : ∀ b, b.length = 16 → (enc b).length = 16)
    (hinv : ∀ b, b.length = 16 → dec (enc b) = b)
    (f1 f2 : Nat) (iblock : List Byte) (h1 : iblock.length ≤ f1) (h2 : iblock.length ≤ f2) :
    crypt_loop dec f2 (crypt_loop enc f1 iblock) = iblock := by
  induction f1 generalizing iblock f2 with
  | zero =>
    have : iblock = [] := List.length_eq_zero.mp (Nat.le_zero.mp h1)
    subst this
    exact crypt_loop_short dec f2 [] (by simp)
  | succ f ih =>
    by_cases h : 16 ≤ iblock.length
    · obtain ⟨b, rest, rfl, hb⟩ := split_block iblock h
      simp only [List.length_append, hb] at h1 h2
      obtain ⟨k, rfl⟩ : ∃ k, f2 = k + 1 := ⟨f2 - 1, by omega⟩
      rw [crypt_loop_block enc f b rest hb, crypt_loop_block dec k _ _ (henc b hb), hinv b hb,
        ih k rest (by omega) (by omega)]
    · have hs : iblock.length < 16 := Nat.lt_of_not_le h
      rw [crypt_loop_short enc _ _ hs, crypt_loop_short dec _ _ hs]

theorem crypt_loop_nth_block (cipher : List Byte → List Byte)
    (hc : ∀ b, b.length = 16 → (cipher b).length = 16)
    (fuel : Nat) (iblock : List Byte) (hf : iblock.length ≤ fuel)
    (i : Nat) (hi : i < iblock.length / 16) :
    ((crypt_loop cipher fuel iblock).drop (16 * i)).take 16 =
      cipher ((iblock.drop (16 * i)).take 16) := by
  induction fuel generalizing iblock i with
  | zero => omega
  | succ f ih =>
    have h : 16 ≤ iblock.length := by omega
    obtain ⟨b, rest, rfl, hb⟩ := split_block iblock h
    simp only [List.length_append, hb] at hf hi
    rw [crypt_loop_block cipher f b rest hb]
    cases i with
    | zero =>
      simp only [Nat.mul_zero, List.drop_zero]
      rw [List.take_left' (hc b hb), List.take_left' hb]
    | succ j =>
      have e1 : 16 * (j + 1) = (cipher b).length + 16 * j := by rw [hc b hb]; omega
      have e2 : 16 * (j + 1) = b.length + 16 * j := by rw [hb]; omega
      rw [e1, List.drop_append, ← e1, e2, List.drop_append]
      exact ih rest (by omega) j (by omega)

theorem crypt_loop_tail (cipher : List Byte → List Byte)
    (hc : ∀ b, b.length = 16 → (cipher b).length = 16)
    (fuel : Nat) (iblock : List Byte) (hf : iblock.length ≤ fuel) :
    (crypt_loop cipher fuel iblock).drop (16 * (iblock.length / 16)) =
      iblock.drop (16 * (iblock.length / 16)) := by
  induction fuel generalizing iblock with
  | zero =>
    have : iblock = [] := List.length_eq_zero.mp (Nat.le_zero.mp hf)
    subst this
    rfl
  | succ f ih =>
    by_cases h : 16 ≤ iblock.length
    · obtain ⟨b, rest, rfl, hb⟩ := split_block iblock h
      simp only [List.length_append, hb] at hf
      rw [crypt_loop_block cipher f b rest hb]
      have e0 : (b ++ rest).length / 16 = rest.length / 16 + 1 := by
        simp only [List.length_append, hb]; omega
      have e1 : 16 * (rest.length / 16 + 1) = (cipher b).length + 16 * (rest.length / 16) := by
        rw [hc b hb]; omega
      have e2 : 16 * (rest.length / 16 + 1) = b.length + 16 * (rest.length / 16) := by
        rw [hb]; omega
      rw [e0, e1, List.drop_append, ← e1, e2, List.drop_append]
      exact ih rest (by omega)
    · rw [crypt_loop_short cipher _ _ (Nat.lt_of_not_le h)]

/-! ## Digest and verification lemmas -/

theorem calc_md5_length (md5 : MD5) (profile : Profile) (buf digest : List Byte)
    (h : calc_md5 md5 profile buf = .ok digest) : digest.length = 16 := by
  unfold calc_md5 at h
  split at h
  · split at h
    · cases h
    · cases h
      exact md5.hash_length _
  · cases h
    exact md5.hash_length _

theorem do_verify_of_digest (md5 : MD5) (profile : Profile) (digest payload : List Byte)
    (h : calc_md5 md5 profile payload = .ok digest) (verbosity : Int) :
    ∃ v, do_verify md5 profile (digest ++ payload) verbosity = some v ∧ v.ret = 0 := by
  have hd := calc_md5_length md5 profile payload digest h
  have hl : ¬ (digest ++ payload).length < 16 := by simp [hd]
  simp only [do_verify, hl, if_false, List.drop_left' hd, List.take_left' hd, h, memcmp]
  by_cases hv : verbosity > 1 <;> simp [hv]

theorem do_crypt_wbuf_error (sys : Sys) (aes : AES) (profile : Profile) (buf : List Byte)
    (password : Option (List Char)) (decrypt : Bool) (r : CryptResult)
    (h : do_crypt_wbuf sys aes profile buf password decrypt = .error r) :
    r.ret = 1 ∧ r.out = none ∧ Msg.nothing_to_fix ∉ r.msgs := by
  unfold do_crypt_wbuf at h
  split at h
  · split at h
    · cases h; exact ⟨rfl, rfl, by simp⟩
    · split at h
      · cases h; exact ⟨rfl, rfl, by simp⟩
      · split at h
        · cases h; exact ⟨rfl, rfl, by simp⟩
        · cases h
  · cases h

theorem do_crypt_wbuf_ok (sys : Sys) (aes : AES) (profile : Profile) (buf : List Byte)
    (password : Option (List Char)) (decrypt : Bool) (wbuf : List Byte)
    (h : do_crypt_wbuf sys aes profile buf password decrypt = .ok wbuf) :
    Transformed aes profile buf password decrypt wbuf := by
  unfold do_crypt_wbuf at h
  unfold Transformed
  split at h
  · split at h
    · cases h
    · split at h
      · cases h
      · split at h
        · cases h
        · cases h
          exact ⟨_, _, by assumption, by assumption, rfl⟩
  · cases h
    rfl

theorem do_crypt_ret_zero (sys : Sys) (md5 : MD5) (aes : AES) (profile : Profile)
    (buf : List Byte) (password : Option (List Char)) (decrypt : Bool) (r : CryptResult)
    (hrun : do_crypt sys md5 aes profile buf password decrypt = some r) (hret : r.ret = 0) :
    ∃ digest payload, r.out = some (digest ++ payload) ∧
      calc_md5 md5 profile payload = .ok digest ∧
      Transformed aes profile buf password decrypt payload ∧
      16 < buf.length ∧
      r.msgs = (if password.isNone then [Msg.new_checksum digest] else []) := by
  unfold do_crypt at hrun
  simp only [] at hrun
  split at hrun
  · cases hrun; simp at hret
  · rename_i hlen
    split at hrun
    · rename_i r1 hw
      cases hrun
      have := (do_crypt_wbuf_error sys aes profile buf password decrypt r hw).1
      omega
    · rename_i wbuf hw
      split at hrun
      · cases hrun
      · split at hrun
        · cases hrun; simp at hret
        · rename_i digest hd
          split at hrun
          · cases hrun; simp at hret
          · split at hrun
            · cases hrun; simp at hret
            · rename_i hw2
              cases hrun
              refine ⟨digest, wbuf, rfl, hd,
                do_crypt_wbuf_ok sys aes profile buf password decrypt wbuf hw, ?_, rfl⟩
              simp [xfwrite] at hw2
              omega

theorem do_crypt_sys_of_ret_zero (sys : Sys) (md5 : MD5) (aes : AES) (profile : Profile)
    (buf : List Byte) (password : Option (List Char)) (decrypt : Bool) (r : CryptResult)
    (hrun : do_crypt sys md5 aes profile buf password decrypt = some r) (hret : r.ret = 0) :
    sys.fopen_ok = true ∧ sys.fwrite_ok = true := by
  unfold do_crypt at hrun
  simp only [] at hrun
  split at hrun
  · cases hrun; simp at hret
  · split at hrun
    · rename_i r1 hw
      cases hrun
      have := (do_crypt_wbuf_error sys aes profile buf password decrypt r hw).1
      omega
    · split at hrun
      · cases hrun
      · rename_i hopen
        split at hrun
        · cases hrun; simp at hret
        · split at hrun
          · cases hrun; simp at hret
          · rename_i hw1
            simp [xfwrite] at hw1
            simp at hopen
            exact ⟨hopen, hw1⟩

theorem do_crypt_of_wbuf (sys : Sys) (md5 : MD5) (aes : AES) (profile : Profile)
    (buf : List Byte) (password : Option (List Char)) (decrypt : Bool)
    (wbuf digest : List Byte) (hlen : 16 < buf.length)
    (hw : do_crypt_wbuf sys aes profile buf password decrypt = .ok wbuf)
    (hopen : sys.fopen_ok = true) (hwrite : sys.fwrite_ok = true)
    (hd : calc_md5 md5 profile wbuf = .ok digest) :
    do_crypt sys md5 aes profile buf password decrypt =
      some ⟨0, if password.isNone then [Msg.new_checksum digest] else [],
        some (digest ++ wbuf)⟩ := by
  have h1 : ¬ buf.length < 16 := by omega
  have h2 : buf.length - 16 ≠ 0 := by omega
  simp [do_crypt, h1, hw, hopen, hwrite, hd, xfwrite, h2]

theorem do_crypt_wbuf_password (sys : Sys) (aes : AES) (profile : Profile) (buf : List Byte)
    (pw : List Char) (decrypt : Bool) (keyfun : List Char → Option (List Byte))
    (key : List Byte) (hfun : profile.cfg_keyfun = some keyfun) (hkey : keyfun pw = some key)
    (hm : sys.malloc_ok = true) :
    do_crypt_wbuf sys aes profile buf (some pw) decrypt =
      .ok (crypt_loop (if decrypt then aes.decrypt key else aes.encrypt key)
        (buf.length - 16) (buf.drop 16)) := by
  simp [do_crypt_wbuf, hfun, hkey, hm]

theorem calc_md5_ok_any (md5 : MD5) (profile : Profile) (x y digest : List Byte)
    (h : calc_md5 md5 profile x = .ok digest) : ∃ d, calc_md5 md5 profile y = .ok d := by
  unfold calc_md5 at h ⊢
  split at h
  · rename_i hk
    rw [if_pos hk]
    split at h
    · cases h
    · exact ⟨_, rfl⟩
  · rename_i hk
    rw [if_neg hk]
    exact ⟨_, rfl⟩

theorem addAES_inverse (key b : List Byte) :
    addAES.decrypt key (addAES.encrypt key b) = b := by
  simp [addAES, Function.comp_def]

/-! ## Repair lemmas -/

theorem ntohs_lt (hi lo : Byte) : ntohs hi lo < 65536 := by
  have h1 := hi.isLt
  have h2 := lo.isLt
  unfold ntohs
  omega

theorem store_size_length (buf : List Byte) (v : Nat) :
    (store_size buf v).length = buf.length := by
  simp [store_size]

theorem store_size_getElem (buf : List Byte) (v i : Nat) (h94 : i ≠ 94) (h95 : i ≠ 95) :
    (store_size buf v)[i]? = buf[i]? := by
  simp [store_size, List.getElem?_set, Ne.symm h94, Ne.symm h95]

theorem store_size_ntohs (buf : List Byte) (v : Nat) (hlen : 96 ≤ buf.length)
    (hv : v ≤ 65535) :
    ntohs ((store_size buf v).getD 94 0) ((store_size buf v).getD 95 0) = v := by
  have h94 : 94 < buf.length := by omega
  have h95 : 95 < buf.length := by omega
  simp [store_size, htons, ntohs, List.getD_eq_getElem?_getD, List.getElem?_set, h94, h95,
    Fin.ofNat]
  omega

theorem do_verify_verified (md5 : MD5) (profile : Profile) (buf : List Byte)
    (hlen : 16 ≤ buf.length)
    (h : calc_md5 md5 profile (buf.drop 16) = .ok (buf.take 16)) :
    do_verify md5 profile buf 0 = some ⟨0, []⟩ := by
  have hl : ¬ buf.length < 16 := by omega
  simp [do_verify, hl, h, memcmp]

theorem do_verify_unverified (md5 : MD5) (profile : Profile) (buf : List Byte)
    (hlen : 16 ≤ buf.length)
    (h : calc_md5 md5 profile (buf.drop 16) ≠ .ok (buf.take 16)) :
    ∃ m, do_verify md5 profile buf 0 = some ⟨1, m⟩ ∧ Msg.nothing_to_fix ∉ m := by
  have hl : ¬ buf.length < 16 := by omega
  unfold do_verify
  rw [if_neg hl]
  cases hc : calc_md5 md5 profile (buf.drop 16) with
  | error m => exact ⟨[m], rfl, by
      unfold calc_md5 at hc
      split at hc
      · split at hc
        · cases hc; simp
        · cases hc
      · cases hc⟩
  | ok expected =>
    have he := calc_md5_length md5 profile _ expected hc
    have hne : buf.take 16 ≠ expected := by
      intro heq
      apply h
      rw [hc, heq]
    simp [memcmp, List.take_of_length_le (Nat.le_of_eq he), hne, List.take_take]

theorem do_verify_zero_iff (md5 : MD5) (profile : Profile) (buf : List Byte)
    (hlen : 16 ≤ buf.length) :
    (∃ v, do_verify md5 profile buf 0 = some v ∧ v.ret = 0) ↔
      calc_md5 md5 profile (buf.drop 16) = .ok (buf.take 16) := by
  constructor
  · rintro ⟨v, hv, hr⟩
    by_contra hne
    obtain ⟨m, hm, -⟩ := do_verify_unverified md5 profile buf hlen hne
    rw [hm] at hv
    cases hv
    simp at hr
  · intro h
    exact ⟨_, do_verify_verified md5 profile buf hlen h, rfl⟩

theorem do_crypt_msgs (sys : Sys) (md5 : MD5) (aes : AES) (profile : Profile)
    (buf : List Byte) (password : Option (List Char)) (decrypt : Bool) (r : CryptResult)
    (hrun : do_crypt sys md5 aes profile buf password decrypt = some r) :
    Msg.nothing_to_fix ∉ r.msgs := by
  unfold do_crypt at hrun
  simp only [] at hrun
  split at hrun
  · cases hrun; simp
  · split at hrun
    · rename_i r1 hw
      cases hrun
      exact (do_crypt_wbuf_error sys aes profile buf password decrypt r hw).2.2
    · split at hrun
      · cases hrun
      · split at hrun
        · rename_i m hm
          cases hrun
          unfold calc_md5 at hm
          split at hm
          · split at hm
            · cases hm; simp
            · cases hm
          · cases hm
        · split at hrun
          · cases hrun; simp
          · split at hrun
            · cases hrun; simp
            · cases hrun
              cases password <;> simp

theorem do_fix_checksum_verified (sys : Sys) (md5 : MD5) (aes : AES) (profile : Profile)
    (buf : List Byte) (fixed : Bool) (msgs : List Msg) (hlen : 16 ≤ buf.length)
    (h : calc_md5 md5 profile (buf.drop 16) = .ok (buf.take 16)) :
    do_fix_checksum sys md5 aes profile buf fixed msgs =
      some (do_fix_report 0 fixed msgs none buf) := by
  simp [do_fix_checksum, do_verify_verified md5 profile buf hlen h]

theorem do_fix_checksum_unverified (sys : Sys) (md5 : MD5) (aes : AES) (profile : Profile)
    (buf : List Byte) (fixed : Bool) (msgs : List Msg) (hlen : 16 ≤ buf.length)
    (h : calc_md5 md5 profile (buf.drop 16) ≠ .ok (buf.take 16))
    (hm : Msg.nothing_to_fix ∉ msgs) (r : FixResult)
    (hr : do_fix_checksum sys md5 aes profile buf fixed msgs = some r) :
    r.buf = buf ∧ Msg.nothing_to_fix ∉ r.msgs ∧
      (r.ret = 0 → ∃ digest, calc_md5 md5 profile (buf.drop 16) = .ok digest ∧
        r.out = some (digest ++ buf.drop 16)) := by
  obtain ⟨m, hv, hmm⟩ := do_verify_unverified md5 profile buf hlen h
  unfold do_fix_checksum at hr
  rw [hv] at hr
  cases hc : do_crypt sys md5 aes profile buf none false with
  | none => simp [hc] at hr
  | some c =>
    simp [hc] at hr
    subst hr
    refine ⟨rfl, ?_, ?_⟩
    · simp [do_fix_report, hm, hmm, do_crypt_msgs sys md5 aes profile buf none false c hc]
    · intro hret
      obtain ⟨digest, payload, ho, hd, ht, -, -⟩ :=
        do_crypt_ret_zero sys md5 aes profile buf none false c hc hret
      have hp : payload = buf.drop 16 := ht
      subst hp
      exact ⟨digest, hd, ho⟩

/-- The buffer `do_fix` hands to `do_verify`: the input with the size field
rewritten when it differed from the length. -/
theorem do_fix_eq (sys : Sys) (md5 : MD5) (aes : AES) (profile : Profile) (buf : List Byte)
    (hlo : 96 ≤ buf.length) (hhi : buf.length ≤ 65535) :
    do_fix sys md5 aes profile buf =
      if ntohs (buf.getD 94 0) (buf.getD 95 0) ≠ buf.length then
        do_fix_checksum sys md5 aes profile (store_size buf buf.length) true
          [Msg.updated_size (ntohs (buf.getD 94 0) (buf.getD 95 0)) buf.length]
      else do_fix_checksum sys md5 aes profile buf false [] := by
  have h1 : ¬ buf.length < 96 := by omega
  have h2 : ¬ buf.length > 0xffff := by omega
  simp only [do_fix, h1, h2, if_false]

theorem do_fix_exceeds_eq (sys : Sys) (md5 : MD5) (aes : AES) (profile : Profile)
    (buf : List Byte) (h : 65535 < buf.length) :
    do_fix sys md5 aes profile buf = some ⟨1, [Msg.err_exceeds_max_size], none, buf⟩ := by
  have h1 : ¬ buf.length < 96 := by omega
  have h2 : buf.length > 0xffff := by omega
  have h3 : ntohs (buf.getD 94 0) (buf.getD 95 0) ≠ buf.length := by
    have := ntohs_lt (buf.getD 94 0) (buf.getD 95 0)
    omega
  simp only [do_fix, h1, h2, h3, if_false, if_true, ne_eq, not_false_eq_true]

/-- The size field is repaired in memory only: when the digest matches the
repaired buffer, nothing is written. -/
theorem do_fix_size_only (sys : Sys) (md5 : MD5) (aes : AES) (profile : Profile)
    (buf : List Byte) (hlo : 96 ≤ buf.length) (hhi : buf.length ≤ 65535)
    (hsize : ntohs (buf.getD 94 0) (buf.getD 95 0) ≠ buf.length)
    (hd : calc_md5 md5 profile ((store_size buf buf.length).drop 16) =
      .ok ((store_size buf buf.length).take 16)) :
    do_fix sys md5 aes profile buf =
      some ⟨0, [Msg.updated_size (ntohs (buf.getD 94 0) (buf.getD 95 0)) buf.length], none,
        store_size buf buf.length⟩ := by
  rw [do_fix_eq sys md5 aes profile buf hlo hhi, if_pos hsize,
    do_fix_checksum_verified sys md5 aes profile _ true _
      (by rw [store_size_length]; omega) hd]
  simp [do_fix_report]

/-- Whenever `do_fix` returns 0 having written `o`, `o` is the digest of the
(size-repaired) buffer's bytes 16.. followed by those bytes. -/
theorem do_fix_written (sys : Sys) (md5 : MD5) (aes : AES) (profile : Profile)
    (buf : List Byte) (r : FixResult) (o : List Byte) (hlo : 96 ≤ buf.length)
    (hrun : do_fix sys md5 aes profile buf = some r) (hret : r.ret = 0)
    (hout : r.out = some o) :
    buf.length ≤ 65535 ∧
    r.buf = (if ntohs (buf.getD 94 0) (buf.getD 95 0) ≠ buf.length
      then store_size buf buf.length else buf) ∧
    ∃ digest, calc_md5 md5 profile (r.buf.drop 16) = .ok digest ∧
      o = digest ++ r.buf.drop 16 := by
  have hhi : buf.length ≤ 65535 := by
    by_contra hc
    rw [do_fix_exceeds_eq sys md5 aes profile buf (by omega)] at hrun
    cases hrun
    simp at hret
  refine ⟨hhi, ?_⟩
  rw [do_fix_eq sys md5 aes profile buf hlo hhi] at hrun
  have main : ∀ (b : List Byte) (fixed : Bool) (msgs : List Msg), 16 ≤ b.length →
      Msg.nothing_to_fix ∉ msgs →
      do_fix_checksum sys md5 aes profile b fixed msgs = some r →
      r.buf = b ∧ ∃ digest, calc_md5 md5 profile (r.buf.drop 16) = .ok digest ∧
        o = digest ++ r.buf.drop 16 := by
    intro b fixed msgs hb hm hr
    by_cases hv : calc_md5 md5 profile (b.drop 16) = .ok (b.take 16)
    · rw [do_fix_checksum_verified sys md5 aes profile b fixed msgs hb hv] at hr
      cases hr
      simp [do_fix_report] at hout
    · obtain ⟨hbuf, -, hz⟩ :=
        do_fix_checksum_unverified sys md5 aes profile b fixed msgs hb hv hm r hr
      obtain ⟨digest, hd, ho⟩ := hz hret
      rw [hout] at ho
      cases ho
      exact ⟨hbuf, digest, by rw [hbuf]; exact hd, by rw [hbuf]⟩
  by_cases hs : ntohs (buf.getD 94 0) (buf.getD 95 0) ≠ buf.length
  · rw [if_pos hs] at hrun ⊢
    exact main _ _ _ (by rw [store_size_length]; omega) (by simp) hrun
  · rw [if_neg hs] at hrun ⊢
    exact main _ _ _ (by omega) (by simp) hrun

theorem staleSizeFile_length (md5 : MD5) : (staleSizeFile md5).length = 120 := by
  simp [staleSizeFile, staleSizePayload, md5.hash_length]

theorem staleSizeFile_size (md5 : MD5) :
    ntohs ((staleSizeFile md5).getD 94 0) ((staleSizeFile md5).getD 95 0) = 90 := by
  have h := md5.hash_length fixedSizePayload
  unfold staleSizeFile
  rw [List.getD_append_right _ _ _ _ (by rw [h]; decide),
    List.getD_append_right _ _ _ _ (by rw [h]; decide), h]
  decide

theorem staleSizeFile_store (md5 : MD5) :
    store_size (staleSizeFile md5) 120 = md5.hash fixedSizePayload ++ fixedSizePayload := by
  have h := md5.hash_length fixedSizePayload
  unfold staleSizeFile store_size
  rw [List.set_append_right _ _ (by rw [h]; decide),
    List.set_append_right _ _ (by simp [h]), h]
  congr 1

/-- The run of `do_fix` on `staleSizeFile`, under the generic profile. -/
theorem do_fix_staleSizeFile (sys : Sys) (md5 : MD5) (aes : AES) :
    do_fix sys md5 aes generic (staleSizeFile md5) =
      some ⟨0, [Msg.updated_size 90 120], none, md5.hash fixedSizePayload ++ fixedSizePayload⟩ := by
  have hl := staleSizeFile_length md5
  have hs := staleSizeFile_size md5
  have hst := staleSizeFile_store md5
  have h := md5.hash_length fixedSizePayload
  have := do_fix_size_only sys md5 aes generic (staleSizeFile md5) (by omega) (by omega)
    (by rw [hs, hl]; decide)
    (by
      rw [hl, hst, List.drop_left' h, List.take_left' h]
      simp [calc_md5, generic, cidx, NUL, MD5_Final, MD5_Update, MD5_Init])
  rw [this, hs, hl, hst]

/-- Whenever `do_fix` returns 0 having written `o`, `o` has the input's
length and carries that length in its size field. -/
theorem do_fix_written_size (sys : Sys) (md5 : MD5) (aes : AES) (profile : Profile)
    (buf : List Byte) (r : FixResult) (o : List Byte) (hlo : 96 ≤ buf.length)
    (hrun : do_fix sys md5 aes profile buf = some r) (hret : r.ret = 0)
    (hout : r.out = some o) :
    o.length = buf.length ∧ ntohs (o.getD 94 0) (o.getD 95 0) = buf.length := by
  obtain ⟨hhi, hb, digest, hd, ho⟩ :=
    do_fix_written sys md5 aes profile buf r o hlo hrun hret hout
  have hdl := calc_md5_length md5 profile _ digest hd
  have hbl : r.buf.length = buf.length := by
    rw [hb]; split
    · exact store_size_length buf _
    · rfl
  have hsz : ntohs (r.buf.getD 94 0) (r.buf.getD 95 0) = buf.length := by
    rw [hb]; split
    · exact store_size_ntohs buf _ hlo hhi
    · rename_i h; simpa using h
  constructor
  · rw [ho, List.length_append, hdl, List.length_drop, hbl]; omega
  · rw [← hsz, ho, List.getD_append_right _ _ _ _ (by rw [hdl]; decide),
      List.getD_append_right _ _ _ _ (by rw [hdl]; decide), hdl]
    simp only [List.getD_eq_getElem?_getD, List.getElem?_drop]

/-- Running `do_fix` again on a file that a successful run wrote finds nothing
to fix. -/
theorem do_fix_rerun_written (sys : Sys) (md5 : MD5) (aes : AES) (profile : Profile)
    (buf : List Byte) (r : FixResult) (o : List Byte) (hlo : 96 ≤ buf.length)
    (hrun : do_fix sys md5 aes profile buf = some r) (hret : r.ret = 0)
    (hout : r.out = some o) :
    do_fix sys md5 aes profile o = some ⟨0, [Msg.nothing_to_fix], none, o⟩ := by
  obtain ⟨hhi, -, digest, hd, ho⟩ :=
    do_fix_written sys md5 aes profile buf r o hlo hrun hret hout
  obtain ⟨hol, hos⟩ := do_fix_written_size sys md5 aes profile buf r o hlo hrun hret hout
  have hdl := calc_md5_length md5 profile _ digest hd
  have hv : calc_md5 md5 profile (o.drop 16) = .ok (o.take 16) := by
    rw [ho, List.drop_left' hdl, List.take_left' hdl]
    exact hd
  rw [do_fix_eq sys md5 aes profile o (by omega) (by omega),
    if_neg (by rw [hos, hol]; simp),
    do_fix_checksum_verified sys md5 aes profile o false [] (by omega) hv]
  simp [do_fix_report]

/-- Decrypting what a successful encrypt run wrote: the run returns 0 and
writes the digest of the original bytes 16.. followed by those bytes. -/
theorem do_crypt_decrypt_of_encrypt (sys : Sys) (md5 : MD5) (aes : AES) (profile : Profile)
    (buf : List Byte) (pw : List Char) (keyfun : List Char → Option (List Byte))
    (key : List Byte) (hfun : profile.cfg_keyfun = some keyfun) (hkey : keyfun pw = some key)
    (hinv : ∀ b, b.length = 16 → aes.decrypt key (aes.encrypt key b) = b)
    (r1 : CryptResult) (o1 : List Byte)
    (hrun : do_crypt sys md5 aes profile buf (some pw) false = some r1) (hret : r1.ret = 0)
    (hout : r1.out = some o1) :
    ∃ r2 d2, do_crypt sys md5 aes profile o1 (some pw) true = some r2 ∧ r2.ret = 0 ∧
      r2.out = some (d2 ++ buf.drop 16) ∧ calc_md5 md5 profile (buf.drop 16) = .ok d2 := by
  obtain ⟨digest, payload, ho, hd, ht, hl, -⟩ :=
    do_crypt_ret_zero sys md5 aes profile buf (some pw) false r1 hrun hret
  obtain ⟨hopen, hwrite⟩ :=
    do_crypt_sys_of_ret_zero sys md5 aes profile buf (some pw) false r1 hrun hret
  obtain ⟨kf, k, hkf, hk, hp⟩ := ht
  rw [hfun] at hkf
  cases hkf
  rw [hkey] at hk
  cases hk
  have hm : sys.malloc_ok = true := by
    by_contra hne
    have hf : sys.malloc_ok = false := by simpa using hne
    have hlt : ¬ buf.length < 16 := by omega
    simp [do_crypt, hlt, do_crypt_wbuf, hfun, hkey, hf] at hrun
    rw [← hrun] at hret
    simp at hret
  rw [ho] at hout
  cases hout
  have hdl := calc_md5_length md5 profile payload digest hd
  simp only [Bool.false_eq_true, if_false] at hp
  have hpl : payload.length = buf.length - 16 := by
    rw [hp]
    simp [crypt_loop_length _ (aes.encrypt_length key)]
  obtain ⟨d2, hd2⟩ := calc_md5_ok_any md5 profile payload (buf.drop 16) digest hd
  have hw2 := do_crypt_wbuf_password sys aes profile (digest ++ payload) pw true keyfun key
    hfun hkey hm
  have hr : crypt_loop (aes.decrypt key) ((digest ++ payload).length - 16)
      ((digest ++ payload).drop 16) = buf.drop 16 := by
    rw [List.drop_left' hdl, hp]
    apply crypt_loop_roundtrip _ _ (aes.encrypt_length key) hinv
    · simp
    · simp [crypt_loop_length _ (aes.encrypt_length key), hdl]
  simp only [if_true, hr] at hw2
  exact ⟨_, d2, do_crypt_of_wbuf sys md5 aes profile (digest ++ payload)
    (some pw) true (buf.drop 16) d2 (by simp [hdl, hpl]; omega) hw2 hopen hwrite hd2,
    rfl, rfl, hd2⟩

/-! ## The record parser and the command line -/

theorem parse_records_sum (width : Nat) (magic_ok : List Byte → Bool) (buf : List Byte)
    (fuel off : Nat) (hoff : off ≤ buf.length) :
    ∃ records remaining,
      parse_records width magic_ok buf fuel off = some (records, remaining) ∧
      (records.map (Record.consumed width)).sum + remaining = buf.length - off := by
  induction fuel generalizing off with
  | zero => exact ⟨[], _, rfl, by simp⟩
  | succ f ih =>
    unfold parse_records
    split
    · exact ⟨[], _, rfl, by simp⟩
    · rename_i hfit
      have h1 : off + 8 ≤ buf.length := by omega
      have h2 : off + 8 + 4 ≤ buf.length := by omega
      have h3 : off + 12 + width ≤ buf.length := by omega
      simp only [read_bytes, h1, h2, h3, if_true]
      split
      · exact ⟨[], _, rfl, by simp⟩
      · rename_i hlen
        obtain ⟨rs, rem, hrec, hsum⟩ := ih
          (off + 12 + width + be_value ((buf.drop (off + 12)).take width)) (by omega)
        rw [hrec]
        refine ⟨_, rem, rfl, ?_⟩
        simp only [List.map_cons, List.sum_cons, Record.consumed]
        omega

theorem parse_records_fuel (width : Nat) (magic_ok : List Byte → Bool) (buf : List Byte)
    (f1 f2 off : Nat) (h1 : buf.length - off < f1) (h2 : buf.length - off < f2) :
    parse_records width magic_ok buf f1 off = parse_records width magic_ok buf f2 off := by
  induction f1 generalizing f2 off with
  | zero => omega
  | succ f ih =>
    obtain ⟨k, rfl⟩ : ∃ k, f2 = k + 1 := ⟨f2 - 1, by omega⟩
    unfold parse_records
    split
    · rfl
    · split
      · simp only []
        split
        · rfl
        · rw [ih k _ (by omega) (by omega)]
      · rfl

/-- What the option loop leaves in the variables of `main`, in terms of the
options given. -/
theorem getopt_loop_flags (w : World) (st0 st : Flags) (opts : List Opt)
    (h : getopt_loop w st0 opts = .ok st) :
    st.verify = (if Opt.V ∈ opts then 1 else st0.verify) ∧
    st.fix = (if Opt.f ∈ opts then 1 else st0.fix) ∧
    st.decrypt = (if Opt.d ∈ opts then 1 else st0.decrypt) ∧
    st.encrypt = (if Opt.e ∈ opts then 1 else st0.encrypt) ∧
    st.list = (if Opt.l ∈ opts then 1 else st0.list) ∧
    st.noverify = (if Opt.n ∈ opts ∨ Opt.f ∈ opts then 1 else st0.noverify) ∧
    (st.password = none ↔ st0.password = none ∧ ∀ arg, Opt.p arg ∉ opts) ∧
    (st.outfile = none ↔ st0.outfile = none ∧ ∀ arg, Opt.o arg ∉ opts) := by
  induction opts generalizing st0 with
  | nil =>
    simp only [getopt_loop] at h
    cases h
    simp
  | cons opt opts ih =>
    unfold getopt_loop at h
    split at h
    · cases h
    · rename_i st1 h1
      obtain ⟨a, b, c, d, e, f, g, k⟩ := ih st1 h
      rw [a, b, c, d, e, f, g, k]
      cases opt <;> simp only [getopt_case] at h1
      all_goals first
        | (cases h1 <;> simp <;> exact fun _ => ⟨_, fun hne => absurd rfl hne⟩)
        | (split at h1
           · cases h1
           · cases h1
             simp)

theorem getopt_loop_error (w : World) (st0 : Flags) (opts : List Opt) (r : MainResult)
    (h : getopt_loop w st0 opts = .error r) : r.ret = 1 ∧ r.calls = [] := by
  induction opts generalizing st0 with
  | nil => simp [getopt_loop] at h
  | cons opt opts ih =>
    unfold getopt_loop at h
    split at h
    · rename_i r1 h1
      cases h
      cases opt <;> simp only [getopt_case] at h1
      all_goals first
        | (cases h1 <;> exact ⟨rfl, rfl⟩)
        | (split at h1
           · cases h1
             exact ⟨rfl, rfl⟩
           · cases h1)
    · exact ih _ h

theorem getopt_loop_commands (w : World) (st : Flags) (opts : List Opt)
    (h : getopt_loop w (flags_init w) opts = .ok st) :
    st.verify + st.fix + st.decrypt + st.encrypt + st.list = commands_selected opts := by
  obtain ⟨a, b, c, d, e, -⟩ := getopt_loop_flags w _ st opts h
  rw [a, b, c, d, e]
  rfl

theorem do_verify_ret (md5 : MD5) (profile : Profile) (buf : List Byte) (verbosity : Int)
    (v : VerifyResult) (h : do_verify md5 profile buf verbosity = some v) :
    v.ret = 0 ∨ v.ret = 1 := by
  unfold do_verify at h
  split at h
  · cases h
  · simp only [] at h
    split at h
    · cases h; exact Or.inr rfl
    · split at h
      · cases h; exact Or.inr rfl
      · split at h
        · cases h; exact Or.inl rfl
        · cases h; exact Or.inl rfl

/-- Past the command-line checks, `main` is `main_run` on the file read. -/
theorem main_eq_main_run (w : World) (opts : List Opt) (infile : String) (rest : List String)
    (st : Flags) (buf : List Byte)
    (hopts : getopt_loop w (flags_init w) opts = .ok st)
    (hone : st.verify + st.fix + st.decrypt + st.encrypt + st.list = 1)
    (hnv : ¬ (st.verify ≠ 0 ∧ st.noverify ≠ 0))
    (hpw : ¬ (st.password = none ∧ (st.encrypt ≠ 0 ∨ st.decrypt ≠ 0)))
    (hout : ¬ (st.outfile = none ∧ (st.encrypt ≠ 0 ∨ st.decrypt ≠ 0)))
    (hread : read_file w.files infile = .ok buf) :
    main w opts (infile :: rest) =
      main_run w st (if st.profile.name = "generic" ∧ st.verify = 0 then 1 else st.noverify) buf
        (if st.profile.name = "generic" then
          [if st.verify ≠ 0 then Msg.warn_generic_verify else Msg.warn_generic_noverify]
        else []) := by
  simp only [main, hopts, hone, ne_eq, not_true_eq_false, if_false, hnv, hpw, hout, hread]

/-! ## The claims -/

/-- C1: round trip of `do_crypt`.  For a file of at least 16 bytes, a profile
whose key function gives `key` for the password, and a cipher whose decrypt
inverts its encrypt on one 16-byte block under `key`: (i) whenever `malloc`
succeeds, the payload computed by the encrypt direction, put behind any
16-byte digest and run through the decrypt direction, gives back bytes 16.. of
the file, for every payload length; (ii) whenever the encrypt run returns 0
having written `o1`, the decrypt run on `o1` returns 0 and the bytes 16.. of
what it writes are bytes 16.. of the original file. -/
theorem do_crypt_roundtrip (sys : Sys) (md5 : MD5) (aes : AES) (profile : Profile)
    (buf : List Byte) (pw : List Char) (keyfun : List Char → Option (List Byte))
    (key : List Byte) (_hlen : 16 ≤ buf.length)
    (hfun : profile.cfg_keyfun = some keyfun) (hkey : keyfun pw = some key)
    (hinv : ∀ b, b.length = 16 → aes.decrypt key (aes.encrypt key b) = b) :
    (sys.malloc_ok = true →
      ∃ enc, do_crypt_wbuf sys aes profile buf (some pw) false = .ok enc ∧
        ∀ digest : List Byte, digest.length = 16 →
          do_crypt_wbuf sys aes profile (digest ++ enc) (some pw) true = .ok (buf.drop 16)) ∧
    (∀ r1 o1, do_crypt sys md5 aes profile buf (some pw) false = some r1 → r1.ret = 0 →
      r1.out = some o1 →
      ∃ r2 o2, do_crypt sys md5 aes profile o1 (some pw) true = some r2 ∧ r2.ret = 0 ∧
        r2.out = some o2 ∧ o2.drop 16 = buf.drop 16) := by
  have hround : ∀ digest : List Byte, digest.length = 16 →
      crypt_loop (aes.decrypt key)
        ((digest ++ crypt_loop (aes.encrypt key) (buf.length - 16) (buf.drop 16)).length - 16)
        ((digest ++ crypt_loop (aes.encrypt key) (buf.length - 16) (buf.drop 16)).drop 16)
        = buf.drop 16 := by
    intro digest hd
    rw [List.drop_left' hd]
    apply crypt_loop_roundtrip _ _ (aes.encrypt_length key) hinv
    · simp
    · simp [crypt_loop_length _ (aes.encrypt_length key), hd]
  constructor
  · intro hm
    refine ⟨_, do_crypt_wbuf_password sys aes profile buf pw false keyfun key hfun hkey hm, ?_⟩
    intro digest hd
    rw [do_crypt_wbuf_password sys aes profile _ pw true keyfun key hfun hkey hm]
    simpa using hround digest hd
  · intro r1 o1 hrun hret hout
    obtain ⟨digest, payload, ho, hd, ht, hl, -⟩ :=
      do_crypt_ret_zero sys md5 aes profile buf (some pw) false r1 hrun hret
    obtain ⟨hopen, hwrite⟩ :=
      do_crypt_sys_of_ret_zero sys md5 aes profile buf (some pw) false r1 hrun hret
    obtain ⟨kf, k, hkf, hk, hp⟩ := ht
    rw [hfun] at hkf
    cases hkf
    rw [hkey] at hk
    cases hk
    have hm : sys.malloc_ok = true := by
      by_contra hne
      have hf : sys.malloc_ok = false := by simpa using hne
      have hlt : ¬ buf.length < 16 := by omega
      simp [do_crypt, hlt, do_crypt_wbuf, hfun, hkey, hf] at hrun
      rw [← hrun] at hret
      simp at hret
    rw [ho] at hout
    cases hout
    have hdl := calc_md5_length md5 profile payload digest hd
    have hpl : payload.length = buf.length - 16 := by
      rw [hp]
      simp [crypt_loop_length _ (aes.encrypt_length key)]
    obtain ⟨d2, hd2⟩ := calc_md5_ok_any md5 profile payload (buf.drop 16) digest hd
    have hw2 := do_crypt_wbuf_password sys aes profile (digest ++ payload) pw true keyfun key
      hfun hkey hm
    have hr := hround digest hdl
    simp only [Bool.false_eq_true, if_false] at hp
    rw [← hp] at hr
    simp only [if_true, hr] at hw2
    refine ⟨_, d2 ++ buf.drop 16, do_crypt_of_wbuf sys md5 aes profile (digest ++ payload)
      (some pw) true (buf.drop 16) d2 ?_ hw2 hopen hwrite hd2, rfl, rfl, ?_⟩
    · simp [hdl, hpl]; omega
    · exact List.drop_left' (calc_md5_length md5 profile _ d2 hd2)

theorem do_crypt_roundtrip_witness :
    ∃ r2 o2, do_crypt sysOk sumMD5 addAES keyed cipherFile (some pwX) true = some r2 ∧
      r2.ret = 0 ∧ r2.out = some o2 ∧ o2.drop 16 = plainFile.drop 16 :=
  (do_crypt_roundtrip sysOk sumMD5 addAES keyed plainFile pwX charKey
    [120] (by decide) rfl (by decide) (fun b _ => addAES_inverse [120] b)).2
    ⟨0, [], some cipherFile⟩ cipherFile (by decide) rfl rfl

/-- C2: block and remainder handling of `do_crypt` with a password, in either
direction.  When the run returns 0, it wrote a 16-byte digest followed by
`out`, where `out` has the `n = len - 16` bytes of the input payload's length,
block `i` of `out` (for every `i < n / 16`) is the cipher under the derived key
applied to block `i` of the payload alone, and from offset `n - n % 16` on
(the final `n % 16` bytes) `out` equals the payload. -/
theorem do_crypt_blocks (sys : Sys) (md5 : MD5) (aes : AES) (profile : Profile)
    (buf : List Byte) (pw : List Char) (decrypt : Bool) (r : CryptResult)
    (hrun : do_crypt sys md5 aes profile buf (some pw) decrypt = some r) (hret : r.ret = 0) :
    ∃ keyfun key digest out, profile.cfg_keyfun = some keyfun ∧ keyfun pw = some key ∧
      digest.length = 16 ∧ r.out = some (digest ++ out) ∧
      out.length = buf.length - 16 ∧
      (∀ i, i < (buf.length - 16) / 16 →
        (out.drop (16 * i)).take 16 =
          (if decrypt then aes.decrypt key else aes.encrypt key)
            (((buf.drop 16).drop (16 * i)).take 16)) ∧
      out.drop ((buf.length - 16) - (buf.length - 16) % 16) =
        (buf.drop 16).drop ((buf.length - 16) - (buf.length - 16) % 16) ∧
      (out.drop ((buf.length - 16) - (buf.length - 16) % 16)).length =
        (buf.length - 16) % 16 := by
  obtain ⟨digest, payload, ho, hd, ⟨keyfun, key, hfun, hkey, hp⟩, -, -⟩ :=
    do_crypt_ret_zero sys md5 aes profile buf (some pw) decrypt r hrun hret
  have hc : ∀ b : List Byte, b.length = 16 →
      ((if decrypt then aes.decrypt key else aes.encrypt key) b).length = 16 := by
    intro b hb
    cases decrypt
    · exact aes.encrypt_length key b hb
    · exact aes.decrypt_length key b hb
  have hdl : (buf.drop 16).length = buf.length - 16 := by simp
  have hpl : payload.length = buf.length - 16 := by rw [hp, crypt_loop_length _ hc, hdl]
  have hoff : (buf.length - 16) - (buf.length - 16) % 16 = 16 * ((buf.drop 16).length / 16) := by
    rw [hdl]; omega
  refine ⟨keyfun, key, digest, payload, hfun, hkey,
    calc_md5_length md5 profile payload digest hd, ho, hpl, ?_, ?_, ?_⟩
  · intro i hi
    rw [hp]
    exact crypt_loop_nth_block _ hc _ _ (by rw [hdl]) i (by rw [hdl]; exact hi)
  · rw [hoff, hp]
    exact crypt_loop_tail _ hc _ _ (by rw [hdl])
  · rw [List.length_drop, hpl]
    omega

theorem do_crypt_blocks_witness :
    ∃ keyfun key digest out, keyed.cfg_keyfun = some keyfun ∧ keyfun pwX = some key ∧
      digest.length = 16 ∧
      (⟨0, [], some cipherFile⟩ : CryptResult).out = some (digest ++ out) ∧
      out.length = plainFile.length - 16 ∧
      (∀ i, i < (plainFile.length - 16) / 16 →
        (out.drop (16 * i)).take 16 =
          (if false then addAES.decrypt key else addAES.encrypt key)
            (((plainFile.drop 16).drop (16 * i)).take 16)) ∧
      out.drop ((plainFile.length - 16) - (plainFile.length - 16) % 16) =
        (plainFile.drop 16).drop ((plainFile.length - 16) - (plainFile.length - 16) % 16) ∧
      (out.drop ((plainFile.length - 16) - (plainFile.length - 16) % 16)).length =
        (plainFile.length - 16) % 16 :=
  do_crypt_blocks sysOk sumMD5 addAES keyed plainFile pwX false ⟨0, [], some cipherFile⟩
    (by decide) rfl

/-- C3: output of `do_crypt`.  For a file of at least 16 bytes on which
`do_crypt` returns 0 (encrypt, decrypt, or no password), the bytes written are
`digest ++ payload` where `payload` is the transformed bytes 16.. of the input
(those bytes themselves without a password, the block loop's result with one)
and `digest` is `calc_md5` of `payload` under the profile, whatever the
direction; the output is as long as the input and `do_verify` on it returns 0
at every verbosity. -/
theorem do_crypt_output (sys : Sys) (md5 : MD5) (aes : AES) (profile : Profile)
    (buf : List Byte) (password : Option (List Char)) (decrypt : Bool) (r : CryptResult)
    (hlen : 16 ≤ buf.length)
    (hrun : do_crypt sys md5 aes profile buf password decrypt = some r) (hret : r.ret = 0) :
    ∃ digest payload, r.out = some (digest ++ payload) ∧
      calc_md5 md5 profile payload = .ok digest ∧
      Transformed aes profile buf password decrypt payload ∧
      (digest ++ payload).length = buf.length ∧
      ∀ verbosity, ∃ v, do_verify md5 profile (digest ++ payload) verbosity = some v ∧
        v.ret = 0 := by
  obtain ⟨digest, payload, ho, hd, ht, -, -⟩ :=
    do_crypt_ret_zero sys md5 aes profile buf password decrypt r hrun hret
  refine ⟨digest, payload, ho, hd, ht, ?_, do_verify_of_digest md5 profile digest payload hd⟩
  have hdl := calc_md5_length md5 profile payload digest hd
  have hpl : payload.length = buf.length - 16 := by
    unfold Transformed at ht
    cases password with
    | none => simp only at ht; rw [ht]; simp
    | some pw =>
      obtain ⟨keyfun, key, -, -, hp⟩ := ht
      have hc : ∀ b : List Byte, b.length = 16 →
          ((if decrypt then aes.decrypt key else aes.encrypt key) b).length = 16 := by
        intro b hb
        cases decrypt
        · exact aes.encrypt_length key b hb
        · exact aes.decrypt_length key b hb
      rw [hp, crypt_loop_length _ hc]
      simp
  rw [List.length_append, hdl, hpl]
  omega

theorem do_crypt_output_witness :
    ∃ digest payload,
      (⟨0, [Msg.new_checksum (List.replicate 16 246)],
        some (List.replicate 16 246 ++ plainFile.drop 16)⟩ : CryptResult).out
        = some (digest ++ payload) ∧
      calc_md5 sumMD5 keyed payload = .ok digest ∧
      Transformed addAES keyed plainFile none false payload ∧
      (digest ++ payload).length = plainFile.length ∧
      ∀ verbosity, ∃ v, do_verify sumMD5 keyed (digest ++ payload) verbosity = some v ∧
        v.ret = 0 :=
  do_crypt_output sysOk sumMD5 addAES keyed plainFile none false _ (by decide) (by decide) rfl

/-- C4: verify consistency.  For a file of at least 16 bytes and a profile
under which `calc_md5` of bytes 16.. succeeds with `expected`, `do_verify`
returns, its result is 0 or 1, it is 0 exactly when the leading 16 bytes equal
`expected`, and every other verbosity gives the same return value. -/
theorem do_verify_iff (md5 : MD5) (profile : Profile) (buf expected : List Byte)
    (hlen : 16 ≤ buf.length)
    (hmd5 : calc_md5 md5 profile (buf.drop 16) = .ok expected) (verbosity : Int) :
    ∃ v, do_verify md5 profile buf verbosity = some v ∧
      (v.ret = 0 ↔ buf.take 16 = expected) ∧ (v.ret = 0 ∨ v.ret = 1) ∧
      ∀ verbosity2, ∃ v2, do_verify md5 profile buf verbosity2 = some v2 ∧ v2.ret = v.ret := by
  have hl : ¬ buf.length < 16 := by omega
  have he := calc_md5_length md5 profile _ expected hmd5
  have key : ∀ w : Int, ∃ v, do_verify md5 profile buf w = some v ∧
      v.ret = if buf.take 16 = expected then 0 else 1 := by
    intro w
    simp only [do_verify, hl, if_false, hmd5, memcmp, List.take_take, Nat.min_self,
      List.take_of_length_le (Nat.le_of_eq he)]
    by_cases heq : buf.take 16 = expected
    · by_cases hw : w > 1 <;> simp [heq, hw]
    · simp [heq]
  obtain ⟨v, hv, hr⟩ := key verbosity
  refine ⟨v, hv, ?_, ?_, ?_⟩
  · rw [hr]
    by_cases heq : buf.take 16 = expected <;> simp [heq]
  · rw [hr]
    by_cases heq : buf.take 16 = expected <;> simp [heq]
  · intro w
    obtain ⟨v2, hv2, hr2⟩ := key w
    exact ⟨v2, hv2, by rw [hr2, hr]⟩

theorem do_verify_iff_witness :
    ∃ v, do_verify sumMD5 keyed cipherFile 2 = some v ∧
      (v.ret = 0 ↔ cipherFile.take 16 = List.replicate 16 118) ∧ (v.ret = 0 ∨ v.ret = 1) ∧
      ∀ verbosity2, ∃ v2, do_verify sumMD5 keyed cipherFile verbosity2 = some v2 ∧
        v2.ret = v.ret :=
  do_verify_iff sumMD5 keyed cipherFile (List.replicate 16 118) (by decide) rfl 2

/-- C5: keyed digest construction.  For every payload: when the profile's
secret is non-empty and `parse_hexstr` decodes it to `K`, `calc_md5` returns
the digest of `payload ++ K`; when the secret is empty it returns the digest
of `payload`, the same for every profile without a secret; and the secret
"deadbeef" gives the digest of `payload ++ [0xDE, 0xAD, 0xBE, 0xEF]`. -/
theorem calc_md5_keyed (md5 : MD5) (profile : Profile) (payload : List Byte) :
    (∀ K, cidx profile.cfg_md5key 0 ≠ NUL → parse_hexstr profile.cfg_md5key 64 = (true, K) →
      calc_md5 md5 profile payload = .ok (md5.hash (payload ++ K))) ∧
    (cidx profile.cfg_md5key 0 = NUL →
      calc_md5 md5 profile payload = .ok (md5.hash payload) ∧
      ∀ other : Profile, cidx other.cfg_md5key 0 = NUL →
        calc_md5 md5 other payload = calc_md5 md5 profile payload) ∧
    (profile.cfg_md5key = "deadbeef".toList →
      calc_md5 md5 profile payload = .ok (md5.hash (payload ++ [0xDE, 0xAD, 0xBE, 0xEF]))) := by
  refine ⟨?_, ?_, ?_⟩
  · intro K hk hp
    simp [calc_md5, hk, hp, MD5_Final, MD5_Update, MD5_Init]
  · intro hk
    refine ⟨by simp [calc_md5, hk, MD5_Final, MD5_Update, MD5_Init], ?_⟩
    intro other ho
    simp [calc_md5, hk, ho]
  · intro hs
    have hk : cidx profile.cfg_md5key 0 ≠ NUL := by rw [hs]; decide
    have hp : parse_hexstr profile.cfg_md5key 64 = (true, [0xDE, 0xAD, 0xBE, 0xEF]) := by
      rw [hs]; decide
    simp [calc_md5, hk, hp, MD5_Final, MD5_Update, MD5_Init]

theorem calc_md5_keyed_witness :
    calc_md5 sumMD5 keyed [1, 2, 3] = .ok (sumMD5.hash ([1, 2, 3] ++ [0xDE, 0xAD, 0xBE, 0xEF]))
    ∧ calc_md5 sumMD5 generic [1, 2, 3] = .ok (sumMD5.hash [1, 2, 3]) :=
  ⟨(calc_md5_keyed sumMD5 keyed [1, 2, 3]).2.2 rfl,
   ((calc_md5_keyed sumMD5 generic [1, 2, 3]).2.1 rfl).1⟩

/-- C6 (the code departs from the claim): `staleSizeFile` has 120 bytes and a
size field of 90; `do_fix` prints the size update and returns 0, repairs the
size in memory only, and writes nothing, so no file carrying 120 in bytes
94..95 is produced. -/
theorem do_fix_stale_size_unwritten (sys : Sys) (md5 : MD5) (aes : AES) :
    (staleSizeFile md5).length = 120 ∧
    ntohs ((staleSizeFile md5).getD 94 0) ((staleSizeFile md5).getD 95 0) = 90 ∧
    ∃ r, do_fix sys md5 aes generic (staleSizeFile md5) = some r ∧ r.ret = 0 ∧
      Msg.updated_size 90 120 ∈ r.msgs ∧ r.out = none ∧
      ntohs (r.buf.getD 94 0) (r.buf.getD 95 0) = 120 := by
  refine ⟨staleSizeFile_length md5, staleSizeFile_size md5,
    ⟨0, [Msg.updated_size 90 120], none, md5.hash fixedSizePayload ++ fixedSizePayload⟩,
    do_fix_staleSizeFile sys md5 aes, rfl, by simp, rfl, ?_⟩
  have h := md5.hash_length fixedSizePayload
  show ntohs ((md5.hash fixedSizePayload ++ fixedSizePayload).getD 94 0)
    ((md5.hash fixedSizePayload ++ fixedSizePayload).getD 95 0) = 120
  rw [List.getD_append_right _ _ _ _ (by rw [h]; decide),
    List.getD_append_right _ _ _ _ (by rw [h]; decide), h]
  decide

/-- C7 (the code departs from the claim): on `staleSizeFile` the first run of
`do_fix` returns 0 and writes nothing, so the file left in place is the input
itself, and the second run on it reports the size change again instead of
"nothing to fix". -/
theorem do_fix_rerun_stale_size (sys : Sys) (md5 : MD5) (aes : AES) :
    ∃ r1, do_fix sys md5 aes generic (staleSizeFile md5) = some r1 ∧ r1.ret = 0 ∧
      r1.out = none ∧
      ∃ r2, do_fix sys md5 aes generic (r1.out.getD (staleSizeFile md5)) = some r2 ∧
        r2.ret = 0 ∧ Msg.updated_size 90 120 ∈ r2.msgs ∧ Msg.nothing_to_fix ∉ r2.msgs := by
  have h := do_fix_staleSizeFile sys md5 aes
  refine ⟨⟨0, [Msg.updated_size 90 120], none, md5.hash fixedSizePayload ++ fixedSizePayload⟩,
    h, rfl, rfl,
    ⟨0, [Msg.updated_size 90 120], none, md5.hash fixedSizePayload ++ fixedSizePayload⟩,
    h, rfl, ?_, ?_⟩
  · simp
  · simp

/-- C8: size limit of `do_fix`.  For every file longer than 65535 bytes,
whatever its size field and digest, `do_fix` returns 1 after printing only the
"exceeds maximum file size" error, leaves the buffer (so the size field) as it
was, and writes no output. -/
theorem do_fix_too_large (sys : Sys) (md5 : MD5) (aes : AES) (profile : Profile)
    (buf : List Byte) (h : 65535 < buf.length) :
    ∃ r, do_fix sys md5 aes profile buf = some r ∧ r.ret = 1 ∧
      r.msgs = [Msg.err_exceeds_max_size] ∧ r.out = none ∧ r.buf = buf :=
  ⟨_, do_fix_exceeds_eq sys md5 aes profile buf h, rfl, rfl, rfl, rfl⟩

theorem do_fix_too_large_witness :
    ∃ r, do_fix sysOk sumMD5 addAES generic (List.replicate 65536 0) = some r ∧ r.ret = 1 ∧
      r.msgs = [Msg.err_exceeds_max_size] ∧ r.out = none ∧ r.buf = List.replicate 65536 0 :=
  do_fix_too_large sysOk sumMD5 addAES generic (List.replicate 65536 0)
    (by rw [List.length_replicate]; decide)

/-- C9: frame of `do_fix`.  For a file of length 96..65535 on which `do_fix`
returns 0 having written `o`: `o` has the input's length, agrees with the
input at every offset from 16 on other than 94 and 95, and when the size field
was already right, bytes 16.. of `o` are bytes 16.. of the input. -/
theorem do_fix_frame (sys : Sys) (md5 : MD5) (aes : AES) (profile : Profile)
    (buf : List Byte) (r : FixResult) (o : List Byte) (hlo : 96 ≤ buf.length)
    (_hhi : buf.length ≤ 65535)
    (hrun : do_fix sys md5 aes profile buf = some r) (hret : r.ret = 0)
    (hout : r.out = some o) :
    o.length = buf.length ∧
    (∀ i, 16 ≤ i → i ≠ 94 → i ≠ 95 → o[i]? = buf[i]?) ∧
    (ntohs (buf.getD 94 0) (buf.getD 95 0) = buf.length → o.drop 16 = buf.drop 16) := by
  obtain ⟨-, hb, digest, hd, ho⟩ :=
    do_fix_written sys md5 aes profile buf r o hlo hrun hret hout
  have hdl := calc_md5_length md5 profile _ digest hd
  refine ⟨(do_fix_written_size sys md5 aes profile buf r o hlo hrun hret hout).1, ?_, ?_⟩
  · intro i hi h94 h95
    have hi2 : 16 + (i - 16) = i := by omega
    rw [ho, List.getElem?_append_right (by rw [hdl]; exact hi), hdl, List.getElem?_drop, hi2, hb]
    split
    · exact store_size_getElem buf _ i h94 h95
    · rfl
  · intro hs
    rw [ho, List.drop_left' hdl, hb, if_neg (by simpa using hs)]

set_option maxRecDepth 100000 in
theorem do_fix_frame_witness :
    repairedFile.length = brokenFile.length ∧
    (∀ i, 16 ≤ i → i ≠ 94 → i ≠ 95 → repairedFile[i]? = brokenFile[i]?) ∧
    (ntohs (brokenFile.getD 94 0) (brokenFile.getD 95 0) = brokenFile.length →
      repairedFile.drop 16 = brokenFile.drop 16) :=
  do_fix_frame sysOk sumMD5 addAES generic brokenFile
    ⟨0, [Msg.updated_size 90 120, Msg.new_checksum (List.replicate 16 144)],
      some repairedFile, store_size brokenFile 120⟩
    repairedFile (by decide) (by decide) (by decide) rfl rfl

/-- C10: report of `do_fix`.  For a file of at least 96 bytes, `do_fix` prints
"nothing to fix" if and only if the stored size field equals the file length
and `do_verify` returns 0 on the file; whenever it prints that, it returns 0,
has written no output and has left the buffer as it was. -/
theorem do_fix_nothing_iff (sys : Sys) (md5 : MD5) (aes : AES) (profile : Profile)
    (buf : List Byte) (hlo : 96 ≤ buf.length) :
    ((∃ r, do_fix sys md5 aes profile buf = some r ∧ Msg.nothing_to_fix ∈ r.msgs) ↔
      (ntohs (buf.getD 94 0) (buf.getD 95 0) = buf.length ∧
        ∃ v, do_verify md5 profile buf 0 = some v ∧ v.ret = 0)) ∧
    (∀ r, do_fix sys md5 aes profile buf = some r → Msg.nothing_to_fix ∈ r.msgs →
      r.ret = 0 ∧ r.out = none ∧ r.buf = buf) := by
  have key : ∀ r, do_fix sys md5 aes profile buf = some r → Msg.nothing_to_fix ∈ r.msgs →
      ntohs (buf.getD 94 0) (buf.getD 95 0) = buf.length ∧
      calc_md5 md5 profile (buf.drop 16) = .ok (buf.take 16) ∧
      r = ⟨0, [Msg.nothing_to_fix], none, buf⟩ := by
    intro r hrun hmem
    by_cases hbig : 65535 < buf.length
    · rw [do_fix_exceeds_eq sys md5 aes profile buf hbig] at hrun
      cases hrun
      simp at hmem
    · rw [do_fix_eq sys md5 aes profile buf hlo (by omega)] at hrun
      by_cases hs : ntohs (buf.getD 94 0) (buf.getD 95 0) ≠ buf.length
      · exfalso
        rw [if_pos hs] at hrun
        have hl : 16 ≤ (store_size buf buf.length).length := by
          rw [store_size_length]; omega
        by_cases hv : calc_md5 md5 profile ((store_size buf buf.length).drop 16) =
            .ok ((store_size buf buf.length).take 16)
        · rw [do_fix_checksum_verified sys md5 aes profile _ true _ hl hv] at hrun
          cases hrun
          simp [do_fix_report] at hmem
        · exact (do_fix_checksum_unverified sys md5 aes profile _ true _ hl hv (by simp)
            r hrun).2.1 hmem
      · rw [if_neg hs] at hrun
        by_cases hv : calc_md5 md5 profile (buf.drop 16) = .ok (buf.take 16)
        · rw [do_fix_checksum_verified sys md5 aes profile _ false _ (by omega) hv] at hrun
          cases hrun
          exact ⟨by simpa using hs, hv, by simp [do_fix_report]⟩
        · exact absurd hmem (do_fix_checksum_unverified sys md5 aes profile _ false _
            (by omega) hv (by simp) r hrun).2.1
  refine ⟨⟨?_, ?_⟩, ?_⟩
  · rintro ⟨r, hrun, hmem⟩
    obtain ⟨hs, hv, -⟩ := key r hrun hmem
    exact ⟨hs, (do_verify_zero_iff md5 profile buf (by omega)).mpr hv⟩
  · rintro ⟨hs, hver⟩
    have hv := (do_verify_zero_iff md5 profile buf (by omega)).mp hver
    have hhi : buf.length ≤ 65535 := by
      have := ntohs_lt (buf.getD 94 0) (buf.getD 95 0)
      omega
    refine ⟨⟨0, [Msg.nothing_to_fix], none, buf⟩, ?_, by simp⟩
    rw [do_fix_eq sys md5 aes profile buf hlo hhi, if_neg (by simpa using hs),
      do_fix_checksum_verified sys md5 aes profile _ false _ (by omega) hv]
    simp [do_fix_report]
  · intro r hrun hmem
    obtain ⟨-, -, hr⟩ := key r hrun hmem
    subst hr
    exact ⟨rfl, rfl, rfl⟩

set_option maxRecDepth 100000 in
theorem do_fix_nothing_iff_witness :
    ∃ r, do_fix sysOk sumMD5 addAES generic repairedFile = some r ∧
      Msg.nothing_to_fix ∈ r.msgs :=
  (do_fix_nothing_iff sysOk sumMD5 addAES generic repairedFile (by decide)).1.2
    ⟨by decide, ⟨0, []⟩, by decide, rfl⟩

/-- C11: key errors of `do_crypt`.  For a file of at least 16 bytes and any
password: if the profile has no key function, or its key function fails on the
password, `do_crypt` returns 1 and the output file is never opened, whatever
the environment and direction; and without a password the result is the same
whatever the profile holds as key function. -/
theorem do_crypt_key_errors (sys : Sys) (md5 : MD5) (aes : AES) (profile : Profile)
    (buf : List Byte) (pw : List Char) (decrypt : Bool) (hlen : 16 ≤ buf.length)
    (hkey : profile.cfg_keyfun = none ∨
      ∃ keyfun, profile.cfg_keyfun = some keyfun ∧ keyfun pw = none) :
    (∃ r, do_crypt sys md5 aes profile buf (some pw) decrypt = some r ∧ r.ret = 1 ∧
      r.out = none) ∧
    (∀ other, do_crypt sys md5 aes { profile with cfg_keyfun := other } buf none decrypt =
      do_crypt sys md5 aes profile buf none decrypt) := by
  have hl : ¬ buf.length < 16 := by omega
  constructor
  · rcases hkey with hnone | ⟨keyfun, hfun, hfail⟩
    · exact ⟨⟨1, [Msg.err_no_keyfun profile.name], none⟩,
        by simp [do_crypt, hl, do_crypt_wbuf, hnone], rfl, rfl⟩
    · exact ⟨⟨1, [Msg.err_keyfun_failed], none⟩,
        by simp [do_crypt, hl, do_crypt_wbuf, hfun, hfail], rfl, rfl⟩
  · intro other
    simp [do_crypt, do_crypt_wbuf, calc_md5]

theorem do_crypt_key_errors_witness :
    (∃ r, do_crypt sysOk sumMD5 addAES generic plainFile (some pwX) false = some r ∧
      r.ret = 1 ∧ r.out = none) ∧
    (∀ other, do_crypt sysOk sumMD5 addAES { generic with cfg_keyfun := other } plainFile
        none false = do_crypt sysOk sumMD5 addAES generic plainFile none false) :=
  do_crypt_key_errors sysOk sumMD5 addAES generic plainFile pwX false (by decide)
    (Or.inl rfl)

/-- C13: minimum size guards.  For a file shorter than 16 bytes `do_crypt`
returns 1 having printed only "file too small" and opened no output, whatever
the profile, password, direction and environment; for a file shorter than 96
bytes `do_list` returns 1 having printed only "file too short", whatever the
file holds and whatever the record parser would return. -/
theorem size_guards (sys : Sys) (md5 : MD5) (aes : AES) (profile : Profile)
    (parse_groups : List Byte → List Group × Nat) (buf : List Byte)
    (password : Option (List Char)) (decrypt : Bool) :
    (buf.length < 16 →
      do_crypt sys md5 aes profile buf password decrypt =
        some ⟨1, [Msg.err_file_too_small], none⟩) ∧
    (buf.length < 96 → do_list parse_groups buf = ⟨1, [Msg.err_file_too_short]⟩) := by
  constructor
  · intro h
    simp [do_crypt, h]
  · intro h
    simp [do_list, h]

theorem size_guards_witness :
    do_crypt sysOk sumMD5 addAES keyed tinyFile (some pwX) false =
      some ⟨1, [Msg.err_file_too_small], none⟩ ∧
    do_list parseOne plainFile = ⟨1, [Msg.err_file_too_short]⟩ :=
  ⟨(size_guards sysOk sumMD5 addAES keyed parseOne tinyFile (some pwX) false).1 (by decide),
   (size_guards sysOk sumMD5 addAES keyed parseOne plainFile (some pwX) false).2 (by decide)⟩

/-- C14 fails as stated: on the 120-byte `repairedFile`, with a parser that
yields the empty record sequence and the whole payload as remainder, `do_list`
returns 1. -/
theorem do_list_empty_fails :
    96 ≤ repairedFile.length ∧
    parseNothing (repairedFile.drop 96) = ([], 24) ∧
    (do_list parseNothing repairedFile).ret = 1 := by
  decide

/-- C14 as amended: for a file of at least 96 bytes, `do_list` returns 0 if
the record parser yields at least one record for the bytes after offset 96,
whatever the remainder count (a non-zero remainder is only reported), and
returns 1 if it yields none. -/
theorem do_list_degrades (parse_groups : List Byte → List Group × Nat) (buf : List Byte)
    (hlen : 96 ≤ buf.length) :
    ((parse_groups (buf.drop 96)).1 ≠ [] →
      (do_list parse_groups buf).ret = 0 ∧
      (Msg.failed_to_parse (parse_groups (buf.drop 96)).2 ∈ (do_list parse_groups buf).msgs ↔
        (parse_groups (buf.drop 96)).2 ≠ 0)) ∧
    ((parse_groups (buf.drop 96)).1 = [] → (do_list parse_groups buf).ret = 1) := by
  have hl : ¬ buf.length < 96 := by omega
  constructor
  · intro h
    constructor
    · simp [do_list, hl, h]
    · by_cases hr : (parse_groups (buf.drop 96)).2 = 0
      · simp [do_list, hl, h, hr]
      · simp [do_list, hl, h, hr]
  · intro h
    simp [do_list, hl, h]

set_option maxRecDepth 100000 in
theorem do_list_degrades_witness :
    (do_list parseOne repairedFile).ret = 0 ∧
    (Msg.failed_to_parse (parseOne (repairedFile.drop 96)).2 ∈
        (do_list parseOne repairedFile).msgs ↔
      (parseOne (repairedFile.drop 96)).2 ≠ 0) :=
  (do_list_degrades parseOne repairedFile (by decide)).1 (by decide)

/-- C18 (the code departs from the claim): `do_verify` has no length check, so
on every file shorter than 16 bytes its 16-byte `memcpy` reads past the buffer
(undefined behaviour, `none`) instead of reporting a failure; `do_fix` has
none either, so on every file shorter than 96 bytes the size field it reads at
offsets 94..95 lies outside the buffer.  `main` reaches both: with `-V` or
`-f` on a ten-byte file the run is undefined.  (Every list shorter than 16
is `buf.take 15` for some `buf`, and likewise with 95.) -/
theorem short_file_unguarded (sys : Sys) (md5 : MD5) (aes : AES) (profile : Profile)
    (buf : List Byte) (verbosity : Int) :
    do_verify md5 profile (buf.take 15) verbosity = none ∧
    do_fix sys md5 aes profile (buf.take 95) = none ∧
    main (cfgWorld tinyFile) [Opt.V] ["cfg"] = none ∧
    main (cfgWorld tinyFile) [Opt.f] ["cfg"] = none := by
  have h15 : (buf.take 15).length < 16 := by
    rw [List.length_take]; omega
  have h95 : (buf.take 95).length < 96 := by
    rw [List.length_take]; omega
  refine ⟨by simp [do_verify, h15], by simp [do_fix, h95], by decide, by decide⟩

/-- C20: the stored digest never influences a transform.  Two files of equal
length (at least 16) that agree from offset 16 on give the same `do_crypt`
result for the same profile, password and direction; and, the cipher's decrypt
inverting its encrypt on one block under the derived key, when the encrypt run
returns 0 having written `o1`, the decrypt run on `o1` returns 0 and what it
writes equals the original file byte for byte exactly when `do_verify` returns
0 on the original. -/
theorem do_crypt_ignores_digest (sys : Sys) (md5 : MD5) (aes : AES) (profile : Profile)
    (buf1 buf2 : List Byte) (password : Option (List Char)) (decrypt : Bool)
    (hlen : buf1.length = buf2.length) (h16 : 16 ≤ buf1.length)
    (hagree : buf1.drop 16 = buf2.drop 16) :
    do_crypt sys md5 aes profile buf1 password decrypt =
      do_crypt sys md5 aes profile buf2 password decrypt ∧
    (∀ pw keyfun key r1 o1, profile.cfg_keyfun = some keyfun → keyfun pw = some key →
      (∀ b, b.length = 16 → aes.decrypt key (aes.encrypt key b) = b) →
      do_crypt sys md5 aes profile buf1 (some pw) false = some r1 → r1.ret = 0 →
      r1.out = some o1 →
      ∃ r2 o2, do_crypt sys md5 aes profile o1 (some pw) true = some r2 ∧ r2.ret = 0 ∧
        r2.out = some o2 ∧
        (o2 = buf1 ↔ ∃ v, do_verify md5 profile buf1 0 = some v ∧ v.ret = 0)) := by
  constructor
  · simp [do_crypt, do_crypt_wbuf, hlen, hagree]
  · intro pw keyfun key r1 o1 hfun hkey hinv hrun hret hout
    obtain ⟨r2, d2, hrun2, hret2, hout2, hd2⟩ :=
      do_crypt_decrypt_of_encrypt sys md5 aes profile buf1 pw keyfun key hfun hkey hinv
        r1 o1 hrun hret hout
    have hdl := calc_md5_length md5 profile _ d2 hd2
    refine ⟨r2, _, hrun2, hret2, hout2, ?_⟩
    rw [do_verify_zero_iff md5 profile buf1 h16]
    constructor
    · intro heq
      have ht : (d2 ++ buf1.drop 16).take 16 = buf1.take 16 := by rw [heq]
      rw [List.take_left' hdl] at ht
      rw [hd2, ht]
    · intro hv
      rw [hd2] at hv
      cases hv
      exact List.take_append_drop 16 buf1

theorem do_crypt_ignores_digest_witness :
    do_crypt sysOk sumMD5 addAES keyed plainFile (some pwX) false =
      do_crypt sysOk sumMD5 addAES keyed (List.replicate 16 246 ++ plainFile.drop 16)
        (some pwX) false ∧
    ∃ r2 o2, do_crypt sysOk sumMD5 addAES keyed cipherFile (some pwX) true = some r2 ∧
      r2.ret = 0 ∧ r2.out = some o2 ∧
      (o2 = plainFile ↔ ∃ v, do_verify sumMD5 keyed plainFile 0 = some v ∧ v.ret = 0) :=
  ⟨(do_crypt_ignores_digest sysOk sumMD5 addAES keyed plainFile
      (List.replicate 16 246 ++ plainFile.drop 16) (some pwX) false (by decide) (by decide)
      (by decide)).1,
   (do_crypt_ignores_digest sysOk sumMD5 addAES keyed plainFile
      (List.replicate 16 246 ++ plainFile.drop 16) (some pwX) false (by decide) (by decide)
      (by decide)).2 pwX charKey [120] ⟨0, [], some cipherFile⟩ cipherFile rfl (by decide)
      (fun b _ => addAES_inverse [120] b) (by decide) rfl rfl⟩

/-- C19: hex decoding.  For a string of even length `l <= 2 * cap` made only
of hexadecimal digits, `parse_hexstr` returns true, stores `l / 2` bytes, byte
`i` being `16 * value(s[2i]) + value(s[2i+1])`, and its loop reads no index
beyond `l`, the terminator's; for a string of odd length or of length above
`2 * cap` it returns false and stores nothing. -/
theorem parse_hexstr_hex (hexstr : List Char) (cap : Nat) :
    (strlen hexstr % 2 = 0 → strlen hexstr ≤ 2 * cap →
      (∀ i, i < strlen hexstr → (hexdigit (cidx hexstr i)).isSome = true) →
      ∃ bytes, parse_hexstr hexstr cap = (true, bytes) ∧
        bytes.length = strlen hexstr / 2 ∧
        (∀ i, i < strlen hexstr / 2 → ∃ b : Byte, bytes[i]? = some b ∧
          b.val = 16 * hexval (cidx hexstr (2 * i)) + hexval (cidx hexstr (2 * i + 1))) ∧
        ∀ j ∈ parse_hexstr_reads hexstr (strlen hexstr) (strlen hexstr + 1) 0,
          j ≤ strlen hexstr) ∧
    (strlen hexstr % 2 = 1 ∨ 2 * cap < strlen hexstr →
      parse_hexstr hexstr cap = (false, [])) := by
  constructor
  · intro heven hcap hall
    have hloop := parse_hexstr_loop_hex hexstr hall (strlen hexstr / 2) 0 (strlen hexstr + 1) []
      (by omega) (by omega)
    have hcond : strlen hexstr % 2 = 0 ∧ strlen hexstr ≤ cap * 2 := ⟨heven, by omega⟩
    refine ⟨_, by simp only [parse_hexstr, hcond, and_self, if_true]; exact hloop, by simp, ?_,
      parse_hexstr_reads_le hexstr heven _ 0 (by omega)⟩
    intro i hi
    have hv0 := (hexdigit_some _ _ (hexdigit_of_isSome _ (hall (2 * i) (by omega)))).1
    have hv1 := (hexdigit_some _ _ (hexdigit_of_isSome _ (hall (2 * i + 1) (by omega)))).1
    refine ⟨Fin.ofNat ((16 * hexval (cidx hexstr (2 * i)) +
      hexval (cidx hexstr (2 * i + 1))) % 256), ?_, ?_⟩
    · simp [List.getElem?_map, List.getElem?_range', hi, Nat.mul_comm]
    · simp only [Fin.ofNat]
      omega
  · intro hbad
    have hcond : ¬ (strlen hexstr % 2 = 0 ∧ strlen hexstr ≤ cap * 2) := by omega
    simp only [parse_hexstr, hcond, if_false]

theorem parse_hexstr_hex_witness :
    (∃ bytes, parse_hexstr "deadbeef".toList 64 = (true, bytes) ∧
        bytes.length = strlen "deadbeef".toList / 2 ∧
        (∀ i, i < strlen "deadbeef".toList / 2 → ∃ b : Byte, bytes[i]? = some b ∧
          b.val = 16 * hexval (cidx "deadbeef".toList (2 * i)) +
            hexval (cidx "deadbeef".toList (2 * i + 1))) ∧
        ∀ j ∈ parse_hexstr_reads "deadbeef".toList (strlen "deadbeef".toList)
            (strlen "deadbeef".toList + 1) 0,
          j ≤ strlen "deadbeef".toList) ∧
    parse_hexstr "abc".toList 64 = (false, []) :=
  ⟨(parse_hexstr_hex "deadbeef".toList 64).1 (by decide) (by decide) (by decide),
   (parse_hexstr_hex "abc".toList 64).2 (Or.inl (by decide))⟩

set_option maxRecDepth 100000 in
/-- C12 fails as stated: the secret of `longSecret` is a well-formed hex
string of 130 digits, yet `calc_md5` fails on it (it exceeds the 64-byte key
buffer); and the secret "1g" of `looseSecret` contains a character that is not
a hexadecimal digit, yet `calc_md5` succeeds, taking the pair as the byte 1. -/
theorem calc_md5_secret_counterexample :
    (strlen longSecret.cfg_md5key = 130 ∧
      (∀ i, i < 130 → (hexdigit (cidx longSecret.cfg_md5key i)).isSome = true) ∧
      calc_md5 sumMD5 longSecret [] = .error (Msg.err_md5key "long")) ∧
    (strlen looseSecret.cfg_md5key = 2 ∧ hexdigit (cidx looseSecret.cfg_md5key 1) = none ∧
      calc_md5 sumMD5 looseSecret [] = .ok (sumMD5.hash [1])) := by
  refine ⟨⟨by decide, by decide, rfl⟩, by decide, by decide, rfl⟩

/-- C12 as amended: `calc_md5` succeeds for every profile whose secret is
empty or is a string of hexadecimal digits of even length at most 128; it
fails for every secret of odd length or of length above 128; and whenever it
fails, the secret is non-empty and has odd length, or length above 128, or a
character that is not a hexadecimal digit. -/
theorem calc_md5_secret_errors (md5 : MD5) (profile : Profile) (buf : List Byte) :
    (strlen profile.cfg_md5key = 0 ∨
      (strlen profile.cfg_md5key % 2 = 0 ∧ strlen profile.cfg_md5key ≤ 128 ∧
        ∀ i, i < strlen profile.cfg_md5key →
          (hexdigit (cidx profile.cfg_md5key i)).isSome = true) →
      ∃ digest, calc_md5 md5 profile buf = .ok digest) ∧
    (strlen profile.cfg_md5key % 2 = 1 ∨ 128 < strlen profile.cfg_md5key →
      calc_md5 md5 profile buf = .error (Msg.err_md5key profile.name)) ∧
    ((∃ m, calc_md5 md5 profile buf = .error m) →
      0 < strlen profile.cfg_md5key ∧
      (strlen profile.cfg_md5key % 2 = 1 ∨ 128 < strlen profile.cfg_md5key ∨
        ∃ i, i < strlen profile.cfg_md5key ∧ hexdigit (cidx profile.cfg_md5key i) = none)) := by
  have hgood : strlen profile.cfg_md5key = 0 ∨
      (strlen profile.cfg_md5key % 2 = 0 ∧ strlen profile.cfg_md5key ≤ 128 ∧
        ∀ i, i < strlen profile.cfg_md5key →
          (hexdigit (cidx profile.cfg_md5key i)).isSome = true) →
      ∃ digest, calc_md5 md5 profile buf = .ok digest := by
    intro h
    by_cases hz : strlen profile.cfg_md5key = 0
    · have h0 : cidx profile.cfg_md5key 0 = NUL := by
        have := cidx_strlen profile.cfg_md5key
        rwa [hz] at this
      unfold calc_md5
      rw [if_neg (by simpa using h0)]
      exact ⟨_, rfl⟩
    · rcases h with h | ⟨heven, hle, hall⟩
      · exact absurd h hz
      · have h0 : cidx profile.cfg_md5key 0 ≠ NUL :=
          cidx_lt_strlen profile.cfg_md5key 0 (by omega)
        have hloop := parse_hexstr_loop_hex profile.cfg_md5key hall
          (strlen profile.cfg_md5key / 2) 0 (strlen profile.cfg_md5key + 1) []
          (by omega) (by omega)
        have hcond : strlen profile.cfg_md5key % 2 = 0 ∧ strlen profile.cfg_md5key ≤ 64 * 2 :=
          ⟨heven, by omega⟩
        unfold calc_md5
        rw [if_pos h0]
        simp only [parse_hexstr, hcond, and_self, if_true, hloop]
        exact ⟨_, rfl⟩
  refine ⟨hgood, ?_, ?_⟩
  · intro hbad
    have h0 : cidx profile.cfg_md5key 0 ≠ NUL :=
      cidx_lt_strlen profile.cfg_md5key 0 (by omega)
    have hcond : ¬ (strlen profile.cfg_md5key % 2 = 0 ∧ strlen profile.cfg_md5key ≤ 64 * 2) := by
      omega
    have hparse : parse_hexstr profile.cfg_md5key 64 = (false, []) := by
      simp only [parse_hexstr, hcond, if_false]
    simp [calc_md5, h0, hparse]
  · rintro ⟨m, hm⟩
    by_contra hcon
    have : strlen profile.cfg_md5key = 0 ∨
        (strlen profile.cfg_md5key % 2 = 0 ∧ strlen profile.cfg_md5key ≤ 128 ∧
          ∀ i, i < strlen profile.cfg_md5key →
            (hexdigit (cidx profile.cfg_md5key i)).isSome = true) := by
      by_cases hz : strlen profile.cfg_md5key = 0
      · exact Or.inl hz
      · right
        refine ⟨?_, ?_, ?_⟩
        · by_contra ho
          exact hcon ⟨by omega, Or.inl (by omega)⟩
        · by_contra hl
          exact hcon ⟨by omega, Or.inr (Or.inl (by omega))⟩
        · intro i hi
          by_contra hs
          refine hcon ⟨by omega, Or.inr (Or.inr ⟨i, hi, ?_⟩)⟩
          cases hd : hexdigit (cidx profile.cfg_md5key i) with
          | none => rfl
          | some v => rw [hd] at hs; simp at hs
    obtain ⟨d, hd⟩ := hgood this
    rw [hd] at hm
    cases hm

set_option maxRecDepth 100000 in
theorem calc_md5_secret_errors_witness :
    (∃ digest, calc_md5 sumMD5 generic [1, 2, 3] = .ok digest) ∧
    calc_md5 sumMD5 longSecret [1, 2, 3] = .error (Msg.err_md5key longSecret.name) :=
  ⟨(calc_md5_secret_errors sumMD5 generic [1, 2, 3]).1 (Or.inl (by decide)),
   (calc_md5_secret_errors sumMD5 longSecret [1, 2, 3]).2.1 (Or.inr (by decide))⟩

/-- C16: command-line validation in `main`.  Unless exactly one of the
commands `-V`, `-f`, `-d`, `-e`, `-l` is among the options, `main` ends with
status 1 without reading the input file; and when `-e` or `-d` is given
without a password option or without an output option, `main` ends with
status 1 without reading the input file. -/
theorem main_validation (w : World) (opts : List Opt) (args : List String) :
    (commands_selected opts ≠ 1 →
      ∃ r, main w opts args = some r ∧ r.ret = 1 ∧ r.calls = []) ∧
    ((Opt.e ∈ opts ∨ Opt.d ∈ opts) →
      ((∀ arg, Opt.p arg ∉ opts) ∨ (∀ arg, Opt.o arg ∉ opts)) →
      ∃ r, main w opts args = some r ∧ r.ret = 1 ∧ r.calls = []) := by
  cases hloop : getopt_loop w (flags_init w) opts with
  | error r0 =>
    obtain ⟨h1, h2⟩ := getopt_loop_error w _ opts r0 hloop
    have hm : main w opts args = some r0 := by simp [main, hloop]
    exact ⟨fun _ => ⟨r0, hm, h1, h2⟩, fun _ _ => ⟨r0, hm, h1, h2⟩⟩
  | ok st =>
    have hsum := getopt_loop_commands w st opts hloop
    obtain ⟨-, -, hd, he, -, -, hp, ho⟩ := getopt_loop_flags w _ st opts hloop
    constructor
    · intro hne
      rw [← hsum] at hne
      exact ⟨⟨1, [Msg.usage_text], []⟩, by simp [main, hloop, hne], rfl, rfl⟩
    · intro hcmd hmiss
      by_cases hone : st.verify + st.fix + st.decrypt + st.encrypt + st.list ≠ 1
      · exact ⟨⟨1, [Msg.usage_text], []⟩, by simp [main, hloop, hone], rfl, rfl⟩
      · cases args with
        | nil => exact ⟨⟨1, [Msg.err_no_input_file], []⟩, by simp [main, hloop, hone], rfl, rfl⟩
        | cons infile rest =>
          have hed : st.encrypt ≠ 0 ∨ st.decrypt ≠ 0 := by
            rcases hcmd with h | h
            · left; rw [he, if_pos h]; decide
            · right; rw [hd, if_pos h]; decide
          by_cases hv : st.verify ≠ 0 ∧ st.noverify ≠ 0
          · exact ⟨⟨1, [Msg.err_n_with_v], []⟩, by simp [main, hloop, hone, hv], rfl, rfl⟩
          · by_cases hpw : st.password = none
            · exact ⟨⟨1, [Msg.err_no_password], []⟩,
                by simp only [main, hloop, hone, hv, hpw, hed, if_false, if_true, and_self],
                rfl, rfl⟩
            · have hof : st.outfile = none := by
                rcases hmiss with h | h
                · exact absurd (hp.mpr ⟨rfl, h⟩) hpw
                · exact ho.mpr ⟨rfl, h⟩
              exact ⟨⟨1, [Msg.err_no_output_file], []⟩,
                by simp only [main, hloop, hone, hv, hpw, hof, hed, if_false, if_true, and_self,
                  false_and],
                rfl, rfl⟩

theorem main_validation_witness :
    (∃ r, main (cfgWorld plainFile) [Opt.V, Opt.l] ["cfg"] = some r ∧ r.ret = 1 ∧
      r.calls = []) ∧
    (∃ r, main (cfgWorld plainFile) [Opt.e, Opt.p pwX] ["cfg"] = some r ∧ r.ret = 1 ∧
      r.calls = []) :=
  ⟨(main_validation (cfgWorld plainFile) [Opt.V, Opt.l] ["cfg"]).1 (by decide),
   (main_validation (cfgWorld plainFile) [Opt.e, Opt.p pwX] ["cfg"]).2
     (Or.inl (by decide)) (Or.inr (by simp))⟩

/-- C17: parser robustness, on the parser modelled from the specification.
For every payload, whatever it holds, truncated to any prefix length, the
parser returns without any read past the end of the buffer (`none` would be
such a read), and the bytes consumed by the records it returns plus the
remainder it reports equal the prefix length. -/
theorem parse_records_robust (width : Nat) (magic_ok : List Byte → Bool)
    (payload : List Byte) (n : Nat) :
    ∃ records remaining,
      parse_records width magic_ok (payload.take n) ((payload.take n).length + 1) 0 =
        some (records, remaining) ∧
      (records.map (Record.consumed width)).sum + remaining = (payload.take n).length := by
  obtain ⟨records, remaining, hrun, hsum⟩ :=
    parse_records_sum width magic_ok (payload.take n) ((payload.take n).length + 1) 0
      (Nat.zero_le _)
  exact ⟨records, remaining, hrun, by simpa using hsum⟩

set_option maxRecDepth 100000 in
/-- C15 fails as stated: with the options `-P keyed -f` (no `-n`, a profile
other than "generic") on `brokenFile`, whose stored digest does not match,
`main` does not check the digest and ends with status 0 after `do_fix`. -/
theorem main_fix_skips_check :
    Opt.n ∉ [Opt.common 'P' (some "keyed"), Opt.f] ∧
    (getopt_loop (cfgWorld brokenFile) (flags_init (cfgWorld brokenFile))
      [Opt.common 'P' (some "keyed"), Opt.f]).toOption.map (fun st => st.profile.name)
        = some "keyed" ∧
    (∃ v, do_verify sumMD5 keyed brokenFile 1 = some v ∧ v.ret = 1) ∧
    ∃ r, main (cfgWorld brokenFile) [Opt.common 'P' (some "keyed"), Opt.f] ["cfg"] = some r ∧
      r.ret = 0 ∧ r.calls = [Call.read_file, Call.do_fix] := by
  exact ⟨by decide, by decide,
    ⟨⟨1, [Msg.bad_checksum (List.replicate 16 0) (List.replicate 16 170)]⟩, by decide, rfl⟩,
    ⟨⟨0, [Msg.updated_size 90 120, Msg.new_checksum (List.replicate 16 200)],
      [Call.read_file, Call.do_fix]⟩, by decide, rfl, rfl⟩⟩

/-- C15 as amended: for a run with exactly one command that passes the
command-line checks and reads the file `buf`.  When `-n` or `-f` is given, or
the selected profile is "generic", and the command is not verify, `main` does
not call `do_verify`: it ends with what `do_crypt` (for `-e`, `-d`), `do_list`
(for `-l`) or `do_fix` (for `-f`) gives on `buf`, whatever the leading 16
bytes are.  Otherwise (no `-n`, no `-f`, and the profile is not "generic" or
the command is verify) `do_verify` is called, and when it returns non-zero,
`main` ends with status 1 having called neither `do_crypt` nor `do_list`. -/
theorem main_checksum_gating (w : World) (opts : List Opt) (infile : String)
    (rest : List String) (st : Flags) (buf : List Byte)
    (hopts : getopt_loop w (flags_init w) opts = .ok st)
    (hone : commands_selected opts = 1)
    (hargs : Opt.e ∈ opts ∨ Opt.d ∈ opts → (∃ arg, Opt.p arg ∈ opts) ∧ ∃ arg, Opt.o arg ∈ opts)
    (hread : read_file w.files infile = .ok buf) :
    ((Opt.n ∈ opts ∨ Opt.f ∈ opts ∨ st.profile.name = "generic") → Opt.V ∉ opts →
      ∃ msgs,
        (Opt.e ∈ opts ∨ Opt.d ∈ opts →
          main w opts (infile :: rest) =
            (do_crypt w.sys w.md5 w.aes st.profile buf st.password (decide (Opt.d ∈ opts))).map
              (fun c => ⟨c.ret, msgs ++ c.msgs, [Call.read_file, Call.do_crypt]⟩)) ∧
        (Opt.l ∈ opts →
          main w opts (infile :: rest) =
            some ⟨(do_list w.parse_groups buf).ret, msgs ++ (do_list w.parse_groups buf).msgs,
              [Call.read_file, Call.do_list]⟩) ∧
        (Opt.f ∈ opts →
          main w opts (infile :: rest) =
            (do_fix w.sys w.md5 w.aes st.profile buf).map
              (fun x => ⟨x.ret, msgs ++ x.msgs, [Call.read_file, Call.do_fix]⟩))) ∧
    (Opt.n ∉ opts → Opt.f ∉ opts → (st.profile.name ≠ "generic" ∨ Opt.V ∈ opts) →
      ∀ v, do_verify w.md5 st.profile buf (if Opt.V ∈ opts then 2 else 1) = some v →
        v.ret ≠ 0 →
        ∃ r, main w opts (infile :: rest) = some r ∧ r.ret = 1 ∧
          r.calls = [Call.read_file, Call.do_verify]) := by
  have hsum := getopt_loop_commands w st opts hopts
  obtain ⟨hV, hf, hd, he, hl, hn, hp, ho⟩ := getopt_loop_flags w _ st opts hopts
  simp only [flags_init] at hV hf hd he hl hn hp ho
  have hone1 : st.verify + st.fix + st.decrypt + st.encrypt + st.list = 1 := by
    rw [hsum]; exact hone
  have hed : st.encrypt ≠ 0 ∨ st.decrypt ≠ 0 ↔ Opt.e ∈ opts ∨ Opt.d ∈ opts := by
    rw [he, hd]
    by_cases h1 : Opt.e ∈ opts <;> by_cases h2 : Opt.d ∈ opts <;> simp [h1, h2]
  have hpw : ¬ (st.password = none ∧ (st.encrypt ≠ 0 ∨ st.decrypt ≠ 0)) := by
    rintro ⟨h1, h2⟩
    obtain ⟨⟨arg, ha⟩, -⟩ := hargs (hed.mp h2)
    exact (hp.mp h1).2 arg ha
  have hout : ¬ (st.outfile = none ∧ (st.encrypt ≠ 0 ∨ st.decrypt ≠ 0)) := by
    rintro ⟨h1, h2⟩
    obtain ⟨-, ⟨arg, ha⟩⟩ := hargs (hed.mp h2)
    exact (ho.mp h1).2 arg ha
  unfold commands_selected at hone
  constructor
  · intro hskip hnoV
    have hv0 : st.verify = 0 := by rw [hV, if_neg hnoV]
    have hnv : ¬ (st.verify ≠ 0 ∧ st.noverify ≠ 0) := by simp [hv0]
    have hmain := main_eq_main_run w opts infile rest st buf hopts hone1 hnv hpw hout hread
    have hnover : (if st.profile.name = "generic" ∧ st.verify = 0 then 1 else st.noverify) ≠ 0 := by
      by_cases hg : st.profile.name = "generic"
      · simp [hg, hv0]
      · rw [if_neg (by simp [hg]), hn]
        rcases hskip with h | h | h
        · simp [h]
        · simp [h]
        · exact absurd h hg
    have hver : ¬ (st.verify ≠ 0 ∨
        (if st.profile.name = "generic" ∧ st.verify = 0 then 1 else st.noverify) = 0) := by
      rintro (h | h)
      · exact h hv0
      · exact hnover h
    refine ⟨if st.profile.name = "generic" then
        [if st.verify ≠ 0 then Msg.warn_generic_verify else Msg.warn_generic_noverify]
      else [], ?_, ?_, ?_⟩
    · intro hcmd
      have hfix : st.fix = 0 := by
        rw [hf]
        by_cases h1 : Opt.f ∈ opts
        · exfalso
          rcases hcmd with h | h <;> first | (simp [h1, h] at hone; done) | (simp [h1, h] at hone; omega)
        · simp [h1]
      have hdec : decide (st.decrypt ≠ 0) = decide (Opt.d ∈ opts) := by
        rw [hd]
        by_cases h2 : Opt.d ∈ opts <;> simp [h2]
      rw [hmain]
      simp only [main_run, hver, if_false, hed.mpr hcmd, if_true, hfix, ne_eq, not_true_eq_false,
        hdec]
      cases do_crypt w.sys w.md5 w.aes st.profile buf st.password (decide (Opt.d ∈ opts)) <;> rfl
    · intro hcmd
      have hfix : st.fix = 0 := by
        rw [hf]
        by_cases h1 : Opt.f ∈ opts
        · exfalso
          simp [h1, hcmd] at hone
        · simp [h1]
      have hned : ¬ (st.encrypt ≠ 0 ∨ st.decrypt ≠ 0) := by
        rw [hed]
        rintro (h | h) <;> simp [h, hcmd] at hone
      have hlist : st.list ≠ 0 := by rw [hl, if_pos hcmd]; decide
      rw [hmain]
      simp only [main_run, hver, if_false, hned, hlist, if_true, hfix, ne_eq, not_true_eq_false,
        not_false_eq_true]
      rfl
    · intro hcmd
      have hfix : st.fix ≠ 0 := by rw [hf, if_pos hcmd]; decide
      have hned : ¬ (st.encrypt ≠ 0 ∨ st.decrypt ≠ 0) := by
        rw [hed]
        rintro (h | h) <;> first | (simp [h, hcmd] at hone; done) | (simp [h, hcmd] at hone; omega)
      have hlist : ¬ st.list ≠ 0 := by
        rw [hl]
        by_cases h1 : Opt.l ∈ opts
        · exfalso
          simp [h1, hcmd] at hone
        · simp [h1]
      rw [hmain]
      simp only [main_run, hver, if_false, hned, hlist, if_true, hfix, ne_eq, not_true_eq_false,
        not_false_eq_true]
      rfl
  · intro hnon hnof hprof v hv hret
    have hnov : st.noverify = 0 := by
      rw [hn]
      simp [hnon, hnof]
    have hnv : ¬ (st.verify ≠ 0 ∧ st.noverify ≠ 0) := by simp [hnov]
    have hmain := main_eq_main_run w opts infile rest st buf hopts hone1 hnv hpw hout hread
    have hfix : st.fix = 0 := by rw [hf, if_neg hnof]
    have hverb : (if st.verify ≠ 0 then (2 : Int) else 1) = if Opt.V ∈ opts then 2 else 1 := by
      rw [hV]
      by_cases h1 : Opt.V ∈ opts <;> simp [h1]
    have hver : st.verify ≠ 0 ∨
        (if st.profile.name = "generic" ∧ st.verify = 0 then 1 else st.noverify) = 0 := by
      by_cases h1 : Opt.V ∈ opts
      · left; rw [hV, if_pos h1]; decide
      · right
        rcases hprof with h | h
        · rw [if_neg (by simp [h]), hnov]
        · exact absurd h h1
    have hv1 : v.ret = 1 := by
      rcases do_verify_ret w.md5 st.profile buf _ v hv with h | h
      · exact absurd h hret
      · exact h
    rw [hmain]
    simp only [main_run, hver, if_true, hverb, hv, Option.map_some', hret, if_false, hfix, ne_eq,
      not_true_eq_false]
    exact ⟨_, rfl, hv1, rfl⟩

set_option maxRecDepth 100000 in
theorem main_checksum_gating_witness :
    (∃ msgs,
      (Opt.e ∈ Opt.n :: decryptOpts ∨ Opt.d ∈ Opt.n :: decryptOpts →
        main (cfgWorld plainFile) (Opt.n :: decryptOpts) ["cfg"] =
          (do_crypt sysOk sumMD5 addAES keyed plainFile (some pwX)
            (decide (Opt.d ∈ Opt.n :: decryptOpts))).map
            (fun c => ⟨c.ret, msgs ++ c.msgs, [Call.read_file, Call.do_crypt]⟩)) ∧
      (Opt.l ∈ Opt.n :: decryptOpts →
        main (cfgWorld plainFile) (Opt.n :: decryptOpts) ["cfg"] =
          some ⟨(do_list parseNothing plainFile).ret, msgs ++ (do_list parseNothing plainFile).msgs,
            [Call.read_file, Call.do_list]⟩) ∧
      (Opt.f ∈ Opt.n :: decryptOpts →
        main (cfgWorld plainFile) (Opt.n :: decryptOpts) ["cfg"] =
          (do_fix sysOk sumMD5 addAES keyed plainFile).map
            (fun x => ⟨x.ret, msgs ++ x.msgs, [Call.read_file, Call.do_fix]⟩))) ∧
    (∃ r, main (cfgWorld plainFile) decryptOpts ["cfg"] = some r ∧ r.ret = 1 ∧
      r.calls = [Call.read_file, Call.do_verify]) :=
  ⟨(main_checksum_gating (cfgWorld plainFile) (Opt.n :: decryptOpts) "cfg" []
      { decryptFlags with noverify := 1 } plainFile rfl (by decide)
      (fun _ => ⟨⟨pwX, by decide⟩, ⟨"out", by decide⟩⟩) rfl).1 (Or.inl (by decide)) (by decide),
   (main_checksum_gating (cfgWorld plainFile) decryptOpts "cfg" [] decryptFlags plainFile rfl
      (by decide) (fun _ => ⟨⟨pwX, by decide⟩, ⟨"out", by decide⟩⟩) rfl).2
      (by decide) (by decide) (Or.inl (by decide))
      ⟨1, [Msg.bad_checksum (List.replicate 16 0) (List.replicate 16 246)]⟩ (by decide)
      (by decide)⟩

end Bcm2cfg
